import Mathlib

/-!
# Cube model, move engine, heuristic and one-ply selector of `src/main.cpp`

A shallow embedding of the cube puzzle of `main.cpp`:

* `Color`, `Move`, the face tags `UP … BACK` and the 6 × 9 sticker grid `Cube`;
* the constructor `Cube::Cube` as `Cube.construct`, run on a list of random draws;
* `applyMove` with its three local helpers `rotateFaceCW`, `rotateFaceCCW`, `swap3`;
* `findClosestToPerfectSide`, `remainingPixels`, `h`, `heuristicAllFaces`;
* `moveCost`, `f` and `AstarStep`.

Machine integers are natural numbers; `uint64_t` arithmetic that can leave the range is
reduced modulo `2 ^ 64` explicitly.
-/

namespace RubikAStar

/-! ## Data model -/

/-- Sticker colours, `enum class Color`. -/
inductive Color where
  | WHITE | YELLOW | RED | ORANGE | BLUE | GREEN
  deriving DecidableEq, Repr, Fintype, Inhabited

/-- The value `static_cast<int>(c)` of a colour, used as an index into `cnt[6]`. -/
def Color.toFin : Color → Fin 6
  | .WHITE => 0
  | .YELLOW => 1
  | .RED => 2
  | .ORANGE => 3
  | .BLUE => 4
  | .GREEN => 5

/-- The colour `static_cast<Color>(c)` of an index below 6. -/
def Color.ofFin : Fin 6 → Color
  | 0 => .WHITE
  | 1 => .YELLOW
  | 2 => .RED
  | 3 => .ORANGE
  | 4 => .BLUE
  | 5 => .GREEN

/-- Face tag `UP = 0` of `enum Face`. -/
abbrev UP : Fin 6 := 0
/-- Face tag `DOWN = 1`. -/
abbrev DOWN : Fin 6 := 1
/-- Face tag `LEFT = 2`. -/
abbrev LEFT : Fin 6 := 2
/-- Face tag `RIGHT = 3`. -/
abbrev RIGHT : Fin 6 := 3
/-- Face tag `FRONT = 4`. -/
abbrev FRONT : Fin 6 := 4
/-- Face tag `BACK = 5`. -/
abbrev BACK : Fin 6 := 5

/-- The 18 moves, `enum class Move`, in declaration order. -/
inductive Move where
  | U | U_PRIME | U2
  | D | D_PRIME | D2
  | L | L_PRIME | L2
  | R | R_PRIME | R2
  | F | F_PRIME | F2
  | B | B_PRIME | B2
  deriving DecidableEq, Repr, Fintype, Inhabited

/-- The value `static_cast<int>(m)` of a move: its position in the enumeration. -/
def Move.toNat : Move → Nat
  | .U => 0 | .U_PRIME => 1 | .U2 => 2
  | .D => 3 | .D_PRIME => 4 | .D2 => 5
  | .L => 6 | .L_PRIME => 7 | .L2 => 8
  | .R => 9 | .R_PRIME => 10 | .R2 => 11
  | .F => 12 | .F_PRIME => 13 | .F2 => 14
  | .B => 15 | .B_PRIME => 16 | .B2 => 17

/-- A 6 × 9 grid `faces[6][9]` of cells. The move engine never inspects the content of a
cell, so it is written once for any cell content; the program's cube is `Cube`. -/
abbrev Grid (α : Type) := Fin 6 → Fin 9 → α

/-- The cube of the program: `Color faces[6][9]`; `cb s i` is `cb.faces[s][i]`. -/
abbrev Cube := Grid Color

/-- The assignment `faces[s][i] = v`. -/
def Grid.set {α : Type} (g : Grid α) (s : Fin 6) (i : Fin 9) (v : α) : Grid α :=
  fun s' i' => if s' = s ∧ i' = i then v else g s' i'

/-- Replace the whole row `faces[s]` (the effect of a face lambda on its argument). -/
def Grid.setFace {α : Type} (g : Grid α) (s : Fin 6) (row : Fin 9 → α) : Grid α :=
  fun s' i' => if s' = s then row i' else g s' i'

/-! ## Move engine -/

/-- The lambda `rotateFaceCW`: fill `tmp[0..8]`, then copy `tmp` back over `f`. -/
def rotateFaceCW {α : Type} (f : Fin 9 → α) : Fin 9 → α :=
  let tmp : Fin 9 → α := fun k =>
    match k with
    | 0 => f 6
    | 1 => f 3
    | 2 => f 0
    | 3 => f 7
    | 4 => f 4
    | 5 => f 1
    | 6 => f 8
    | 7 => f 5
    | 8 => f 2
  fun i => tmp i

/-- The lambda `rotateFaceCCW`. -/
def rotateFaceCCW {α : Type} (f : Fin 9 → α) : Fin 9 → α :=
  let tmp : Fin 9 → α := fun k =>
    match k with
    | 0 => f 2
    | 1 => f 5
    | 2 => f 8
    | 3 => f 1
    | 4 => f 4
    | 5 => f 7
    | 6 => f 0
    | 7 => f 3
    | 8 => f 6
  fun i => tmp i

/-- The lambda `swap3`: save strip `a` in `tmp`, then twelve assignments in source order. -/
def swap3 {α : Type} (g : Grid α)
    (aFace : Fin 6) (a0 a1 a2 : Fin 9) (bFace : Fin 6) (b0 b1 b2 : Fin 9)
    (cFace : Fin 6) (c0 c1 c2 : Fin 9) (dFace : Fin 6) (d0 d1 d2 : Fin 9) : Grid α :=
  let tmp0 := g aFace a0
  let tmp1 := g aFace a1
  let tmp2 := g aFace a2
  let g := g.set aFace a0 (g dFace d0)
  let g := g.set aFace a1 (g dFace d1)
  let g := g.set aFace a2 (g dFace d2)
  let g := g.set dFace d0 (g cFace c0)
  let g := g.set dFace d1 (g cFace c1)
  let g := g.set dFace d2 (g cFace c2)
  let g := g.set cFace c0 (g bFace b0)
  let g := g.set cFace c1 (g bFace b1)
  let g := g.set cFace c2 (g bFace b2)
  let g := g.set bFace b0 tmp0
  let g := g.set bFace b1 tmp1
  let g := g.set bFace b2 tmp2
  g

/-- The quarter turns of `Cube::applyMove`: rotate the turning face, then cycle the strips.
Half turns are handled in `applyMove`; here they leave the grid alone. -/
def applyQuarter {α : Type} (m : Move) (g : Grid α) : Grid α :=
  match m with
  | .U => swap3 (g.setFace UP (rotateFaceCW (g UP)))
      FRONT 0 1 2 RIGHT 0 1 2 BACK 0 1 2 LEFT 0 1 2
  | .U_PRIME => swap3 (g.setFace UP (rotateFaceCCW (g UP)))
      FRONT 0 1 2 LEFT 0 1 2 BACK 0 1 2 RIGHT 0 1 2
  | .D => swap3 (g.setFace DOWN (rotateFaceCW (g DOWN)))
      FRONT 6 7 8 LEFT 6 7 8 BACK 6 7 8 RIGHT 6 7 8
  | .D_PRIME => swap3 (g.setFace DOWN (rotateFaceCCW (g DOWN)))
      FRONT 6 7 8 RIGHT 6 7 8 BACK 6 7 8 LEFT 6 7 8
  | .F => swap3 (g.setFace FRONT (rotateFaceCW (g FRONT)))
      UP 6 7 8 LEFT 8 5 2 DOWN 2 1 0 RIGHT 0 3 6
  | .F_PRIME => swap3 (g.setFace FRONT (rotateFaceCCW (g FRONT)))
      UP 6 7 8 RIGHT 0 3 6 DOWN 2 1 0 LEFT 8 5 2
  | .B => swap3 (g.setFace BACK (rotateFaceCW (g BACK)))
      UP 0 1 2 RIGHT 2 5 8 DOWN 8 7 6 LEFT 6 3 0
  | .B_PRIME => swap3 (g.setFace BACK (rotateFaceCCW (g BACK)))
      UP 0 1 2 LEFT 6 3 0 DOWN 8 7 6 RIGHT 2 5 8
  | .L => swap3 (g.setFace LEFT (rotateFaceCW (g LEFT)))
      UP 0 3 6 BACK 8 5 2 DOWN 0 3 6 FRONT 0 3 6
  | .L_PRIME => swap3 (g.setFace LEFT (rotateFaceCCW (g LEFT)))
      UP 0 3 6 FRONT 0 3 6 DOWN 0 3 6 BACK 8 5 2
  | .R => swap3 (g.setFace RIGHT (rotateFaceCW (g RIGHT)))
      UP 2 5 8 FRONT 2 5 8 DOWN 2 5 8 BACK 6 3 0
  | .R_PRIME => swap3 (g.setFace RIGHT (rotateFaceCCW (g RIGHT)))
      UP 2 5 8 BACK 6 3 0 DOWN 2 5 8 FRONT 2 5 8
  | _ => g

/-- The method `Cube::applyMove`: a quarter turn runs its own case; a half turn calls
`applyMove` twice with the clockwise quarter turn of its axis. -/
def applyMove {α : Type} (m : Move) (g : Grid α) : Grid α :=
  match m with
  | .U2 => applyQuarter .U (applyQuarter .U g)
  | .D2 => applyQuarter .D (applyQuarter .D g)
  | .F2 => applyQuarter .F (applyQuarter .F g)
  | .B2 => applyQuarter .B (applyQuarter .B g)
  | .L2 => applyQuarter .L (applyQuarter .L g)
  | .R2 => applyQuarter .R (applyQuarter .R g)
  | m => applyQuarter m g

/-- Apply a finite sequence of moves, first move first. -/
def applyMoves {α : Type} (ms : List Move) (g : Grid α) : Grid α :=
  ms.foldl (fun acc m => applyMove m acc) g

/-! ## Heuristic -/

/-- The array `cnt[6]` after the counting loop `cnt[static_cast<int>(row[i])]++` over the nine
stickers of one face, starting from `{0}`. No entry can exceed 9, so the increment is the
plain successor. -/
def countColors (row : Fin 9 → Color) : Fin 6 → Nat :=
  (List.finRange 9).foldl
    (fun cnt i => Function.update cnt (row i).toFin (cnt (row i).toFin + 1))
    (fun _ => 0)

/-- The position returned by `std::max_element(cnt, cnt + 6)`: the scan starts at the
first entry and moves on only to a strictly larger one. -/
def maxElement (cnt : Fin 6 → Nat) : Fin 6 :=
  ([1, 2, 3, 4, 5] : List (Fin 6)).foldl
    (fun largest k => if cnt largest < cnt k then k else largest) 0

/-- The value `mx = *std::max_element(cnt, cnt + 6)` computed for face `s`. -/
def faceMax (cb : Cube) (s : Fin 6) : Nat :=
  countColors (cb s) (maxElement (countColors (cb s)))

/-- The function `findClosestToPerfectSide`: the loop carries `(bestSide, best)`, starting
from `(0, 0)`, and replaces both when `mx > best`. -/
def findClosestToPerfectSide (cb : Cube) : Fin 6 :=
  ((List.finRange 6).foldl
    (fun (acc : Fin 6 × Nat) s => if faceMax cb s > acc.2 then (s, faceMax cb s) else acc)
    ((0 : Fin 6), 0)).1

/-- The function `remainingPixels`: `9 - mx` in `uint64_t` arithmetic. -/
def remainingPixels (side : Fin 6) (cb : Cube) : Nat :=
  (9 + 2 ^ 64 - faceMax cb side) % 2 ^ 64

/-- The guidance heuristic `h`. -/
def h (cb : Cube) : Nat :=
  let t := remainingPixels (findClosestToPerfectSide cb) cb
  t / 3 + t % 3

/-! ## A* support -/

/-- The function `moveCost`. -/
def moveCost (m : Move) : Nat :=
  if m.toNat % 3 = 2 then 2 else 1

/-- The struct `Player`. -/
structure Player where
  cost : Nat
  deriving DecidableEq

/-- The struct `Node`. -/
structure Node where
  cube : Cube
  gCost : Nat
  deriving DecidableEq

/-- The function `heuristicAllFaces`: count the non-centre stickers that differ from the
centre of their face, then divide by 12. -/
def heuristicAllFaces (cb : Cube) : Nat :=
  let score := (List.finRange 6).foldl
    (fun score face =>
      let center := cb face 4
      (List.finRange 9).foldl
        (fun score i => if i = 4 then score else if cb face i ≠ center then score + 1 else score)
        score)
    0
  score / 12

/-- The struct `AStarState`. -/
structure AStarState where
  cube : Cube
  player : Player
  initialized : Bool
  deriving DecidableEq

/-- The function `f`: `gCost + h(cb)` in `uint64_t` arithmetic. -/
def f (cb : Cube) (gCost : Nat) : Nat :=
  (gCost + h cb) % 2 ^ 64

/-! ## One-step A* -/

/-- The constant `UINT64_MAX`. -/
def UINT64_MAX : Nat := 2 ^ 64 - 1

/-- The variables the scoring loop of `AstarStep` carries from one iteration to the next. -/
structure Scan where
  frontier : List Node
  bestF : Nat
  bestIndices : List Nat
  deriving DecidableEq

/-- The candidate `Node n` built in the loop body for move `m`. -/
def candidate (state : AStarState) (m : Move) : Node :=
  ⟨applyMove m state.cube, (state.player.cost + moveCost m) % 2 ^ 64⟩

/-- One iteration of the scoring loop of `AstarStep`, at index `i` with `m = moves[i]`. -/
def scoreStep (state : AStarState) (acc : Scan) (i : Nat) (m : Move) : Scan :=
  let n := candidate state m
  let fi := f n.cube n.gCost
  let frontier := acc.frontier ++ [n]
  if fi < acc.bestF then
    ⟨frontier, fi, [i]⟩
  else if fi = acc.bestF then
    ⟨frontier, acc.bestF, acc.bestIndices ++ [i]⟩
  else
    ⟨frontier, acc.bestF, acc.bestIndices⟩

/-- The scoring loop of `AstarStep` over the moves still to be visited, from index `i`. -/
def scoreLoop (state : AStarState) : List Move → Nat → Scan → Scan
  | [], _, acc => acc
  | m :: ms, i, acc => scoreLoop state ms (i + 1) (scoreStep state acc i m)

/-- The whole scoring loop of `AstarStep`, started with an empty frontier,
`bestF = UINT64_MAX` and no best index. -/
def scoreAll (state : AStarState) (moves : List Move) : Scan :=
  scoreLoop state moves 0 ⟨[], UINT64_MAX, []⟩

/-- What one call of `AstarStep` leaves behind: the stored state and the line it printed
(chosen move, `heuristicAllFaces` of the new cube, new cost), if it printed one. -/
structure StepOutcome where
  state : AStarState
  printed : Option (Move × Nat × Nat)
  deriving DecidableEq

/-- The function `AstarStep`. The argument `draw` is the value of `dist(gen)`, which the
distribution takes from `0 .. bestIndices.size() - 1`. The three subscripts are checked:
the result is `none` when one of them is out of range. -/
def AstarStep (state : AStarState) (moves : List Move) (draw : Nat) : Option StepOutcome :=
  let sc := scoreAll state moves
  if sc.bestIndices.isEmpty then
    some ⟨state, none⟩
  else do
    let chosenIndex ← sc.bestIndices[draw]?
    let n ← sc.frontier[chosenIndex]?
    let chosenMove ← moves[chosenIndex]?
    let state' : AStarState := ⟨n.cube, ⟨n.gCost⟩, state.initialized⟩
    pure ⟨state', some (chosenMove, heuristicAllFaces state'.cube, state'.player.cost)⟩

/-- The catalog of all 18 moves built in `main`. -/
def allMoves : List Move :=
  [.U, .U_PRIME, .U2, .D, .D_PRIME, .D2, .L, .L_PRIME, .L2,
    .R, .R_PRIME, .R2, .F, .F_PRIME, .F2, .B, .B_PRIME, .B2]

/-! ## Cells and the cell permutation of a move -/

/-- One of the 54 cells: a face tag and an index on the face. -/
abbrev Cell := Fin 6 × Fin 9

/-- The grid whose every cell holds its own position. -/
def labelGrid : Grid Cell := fun s i => (s, i)

/-- The cell whose content a move brings to cell `p`, read off from running the move on
the labelled grid. -/
def cellSource (m : Move) (p : Cell) : Cell := applyMove m labelGrid p.1 p.2

/-- Number of cells of the cube holding colour `k`, over all 54 cells. -/
def colourCount (cb : Cube) (k : Color) : Nat :=
  (Finset.univ.filter (fun p : Cell => cb p.1 p.2 = k)).card

/-- The twelve quarter-turn moves. -/
def quarterTurns : List Move :=
  [.U, .U_PRIME, .D, .D_PRIME, .L, .L_PRIME, .R, .R_PRIME, .F, .F_PRIME, .B, .B_PRIME]

/-- The six half-turn moves. -/
def halfTurns : List Move := [.U2, .D2, .L2, .R2, .F2, .B2]

/-- The six axes as pairs (clockwise quarter turn, counter-clockwise quarter turn). -/
def inversePairs : List (Move × Move) :=
  [(.U, .U_PRIME), (.D, .D_PRIME), (.L, .L_PRIME), (.R, .R_PRIME), (.F, .F_PRIME),
    (.B, .B_PRIME)]

/-- The move that turns the same face back: the two quarter turns of an axis are swapped,
a half turn is its own opposite. -/
def inverseMove : Move → Move
  | .U => .U_PRIME | .U_PRIME => .U | .U2 => .U2
  | .D => .D_PRIME | .D_PRIME => .D | .D2 => .D2
  | .L => .L_PRIME | .L_PRIME => .L | .L2 => .L2
  | .R => .R_PRIME | .R_PRIME => .R | .R2 => .R2
  | .F => .F_PRIME | .F_PRIME => .F | .F2 => .F2
  | .B => .B_PRIME | .B_PRIME => .B | .B2 => .B2

/-- The cell to which a move takes the content of cell `p`. -/
def cellDest (m : Move) (p : Cell) : Cell := cellSource (inverseMove m) p

/-- Move `m` carries the sticker of cell `p` to cell `q`: on every cube, the colour found
at `q` after the move is the colour that was at `p` before it. -/
def carries (m : Move) (p q : Cell) : Prop :=
  ∀ cb : Cube, applyMove m cb q.1 q.2 = cb p.1 p.2

/-- The cubie a sticker is drawn on by `drawFace`: the integer part of the translation of
the sticker's quad (`c - 1`, `1 - r`, … with `r = i / 3`, `c = i % 3`), the outward
offset `±d` of the face being replaced by `±1`. -/
def cubieOf (p : Cell) : Int × Int × Int :=
  let r : Int := (p.2.val / 3 : Nat)
  let c : Int := (p.2.val % 3 : Nat)
  if p.1 = FRONT then (c - 1, 1 - r, 1)
  else if p.1 = BACK then (1 - c, 1 - r, -1)
  else if p.1 = UP then (c - 1, 1, r - 1)
  else if p.1 = DOWN then (c - 1, -1, 1 - r)
  else if p.1 = RIGHT then (1, 1 - r, 1 - c)
  else (-1, 1 - r, c - 1)

/-- The eight corner cubies, each as the list of its three cells. -/
def cornerCubies : List (List Cell) :=
  [[(UP, 6), (FRONT, 0), (LEFT, 2)], [(UP, 8), (FRONT, 2), (RIGHT, 0)],
    [(UP, 0), (BACK, 2), (LEFT, 0)], [(UP, 2), (BACK, 0), (RIGHT, 2)],
    [(DOWN, 0), (FRONT, 6), (LEFT, 8)], [(DOWN, 2), (FRONT, 8), (RIGHT, 6)],
    [(DOWN, 6), (BACK, 8), (LEFT, 6)], [(DOWN, 8), (BACK, 6), (RIGHT, 8)]]

/-- Two lists name the same set of cells. -/
def sameCells (t t' : List Cell) : Prop := ∀ q : Cell, q ∈ t ↔ q ∈ t'

instance (t t' : List Cell) : Decidable (sameCells t t') := by
  unfold sameCells; infer_instance

/-- The stickers of the cells `t` stay on one corner cubie under move `m`: the cells they
are carried to are the three cells of one of the eight corner cubies. -/
def keepsCubie (m : Move) (t : List Cell) : Prop :=
  ∃ dst : List Cell, List.Forall₂ (carries m) t dst ∧ ∃ t' ∈ cornerCubies, sameCells dst t'

/-- A cube that is white except for red stickers on the cells of `t`. -/
def markedCube (t : List Cell) : Cube :=
  fun s i => if (s, i) ∈ t then Color.RED else Color.WHITE

/-- A sample cube with nine stickers of each colour: face `s` is painted with colour `s`. -/
def solvedCube : Cube := fun s _ => Color.ofFin s

/-! ## Notions used to state the properties of the heuristic -/

/-- Number of the nine stickers of face `s` that show colour `k`. -/
def stickerCount (cb : Cube) (s : Fin 6) (k : Color) : Nat :=
  (List.finRange 9).countP (fun i => cb s i = k)

/-- The largest number of equal-coloured stickers found on one face: the maximum over the
six faces of the maximum over the six colours of the colour's count on the face. -/
def bestMajority (cb : Cube) : Nat :=
  Finset.univ.sup fun s : Fin 6 => Finset.univ.sup fun k : Color => stickerCount cb s k

/-- Face `s` shows one colour on all nine stickers. -/
def uniformFace (cb : Cube) (s : Fin 6) : Prop := ∃ k : Color, ∀ i : Fin 9, cb s i = k

instance (cb : Cube) (s : Fin 6) : Decidable (uniformFace cb s) := by
  unfold uniformFace; infer_instance

/-- A cube on which every face is mixed: the colours run cyclically along each face, so no
colour shows more than twice on a face. -/
def mixedCube : Cube :=
  fun s i => Color.ofFin ⟨(s.val + i.val) % 6, Nat.mod_lt _ (by decide)⟩

/-- A cube whose Up face is uniformly white while the five other faces are mixed. -/
def upUniformCube : Cube :=
  fun s i => if s = UP then Color.WHITE else mixedCube s i

/-- A cube whose Up face has eight white stickers and one red one, the five other faces
being mixed. -/
def majorityCube : Cube :=
  fun s i => if s = UP then (if i = 8 then Color.RED else Color.WHITE) else mixedCube s i

/-! ## Notions used to state the properties of the selector -/

/-- The score `fi` the loop of `AstarStep` computes for move `m`. -/
def fScore (state : AStarState) (m : Move) : Nat :=
  f (candidate state m).cube (candidate state m).gCost

/-- The indices `i, i + 1, …` of the moves of `ms` whose score equals `b`, ascending. -/
def tiedFrom (state : AStarState) (b : Nat) : List Move → Nat → List Nat
  | [], _ => []
  | m :: ms, i => (if fScore state m = b then [i] else []) ++ tiedFrom state b ms (i + 1)

/-- The least score over `ms`, capped by `b`. -/
def minScore (state : AStarState) (b : Nat) (ms : List Move) : Nat :=
  ms.foldl (fun acc m => min acc (fScore state m)) b

/-- The state `AstarStep` stores and the line it prints when it commits move `m`. -/
def committed (state : AStarState) (m : Move) : StepOutcome :=
  ⟨⟨applyMove m state.cube, ⟨(state.player.cost + moveCost m) % 2 ^ 64⟩, state.initialized⟩,
    some (m, heuristicAllFaces (applyMove m state.cube),
      (state.player.cost + moveCost m) % 2 ^ 64)⟩

/-- A sample selector state: `majorityCube` with cumulative cost 0. -/
def sampleState : AStarState := ⟨majorityCube, ⟨0⟩, false⟩

/-! ## The constructor -/

/-- The variables of the loops of the constructor `Cube::Cube`: the array `cnt[6]`, the
grid `faces` being filled, and the values `randomShort(0, 5)` is still going to return. -/
structure CtorState where
  cnt : Fin 6 → Nat
  faces : Cube
  draws : List (Fin 6)

/-- The statements `short c = randomShort(0, 5); while (cnt[c] == 9) c = randomShort(0, 5);`:
read draws until one names a colour that has fewer than nine cells. The result is the
colour and the draws left, or `none` when the draws run out before the loop ends. -/
def drawColour (cnt : Fin 6 → Nat) : List (Fin 6) → Option (Fin 6 × List (Fin 6))
  | [] => none
  | c :: rest => if cnt c = 9 then drawColour cnt rest else some (c, rest)

/-- The body of the inner loop of the constructor for the cell `faces[f][i]`. -/
def fillCell (st : CtorState) (p : Cell) : Option CtorState :=
  match drawColour st.cnt st.draws with
  | none => none
  | some (c, rest) =>
    some ⟨Function.update st.cnt c (st.cnt c + 1), st.faces.set p.1 p.2 (Color.ofFin c), rest⟩

/-- The loops of the constructor over the cells still to be filled. -/
def fillCells : List Cell → CtorState → Option CtorState
  | [], st => some st
  | p :: ps, st =>
    match fillCell st p with
    | none => none
    | some st' => fillCells ps st'

/-- The 54 cells in the order of the two nested loops: `f` from 0 to 5, `i` from 0 to 8. -/
def allCells : List Cell :=
  (List.finRange 6).flatMap fun f => (List.finRange 9).map fun i => (f, i)

/-- The constructor `Cube::Cube`, run on the finite list `draws` of the values returned by
`randomShort(0, 5)`. The array `faces` is not initialised by the source: `init` is its
content before the loops. The result is `none` when the loops need more draws than given,
so the loops finish on a sequence of draws exactly when some finite beginning of it gives
`some` cube. -/
def Cube.construct (init : Cube) (draws : List (Fin 6)) : Option Cube :=
  (fillCells allCells ⟨fun _ => 0, init, draws⟩).map fun st => st.faces

/-- A list of draws on which the constructor finishes: nine draws of each colour in turn,
with one rejected draw of the full colour 0 after the first nine. -/
def sampleDraws : List (Fin 6) :=
  List.replicate 9 0 ++ [0] ++ List.replicate 9 1 ++ List.replicate 9 2 ++
    List.replicate 9 3 ++ List.replicate 9 4 ++ List.replicate 9 5

/-- The constructor's counters agree with the grid on the cells `done` filled so far, and
no counter exceeds nine. -/
def CtorInv (done : Finset Cell) (st : CtorState) : Prop :=
  (∀ j, st.cnt j = (done.filter fun p => (st.faces p.1 p.2).toFin = j).card) ∧
  ∀ j, st.cnt j ≤ 9

/-- The same loop state with further draws appended to the draws still to come. -/
def CtorState.extend (st : CtorState) (more : List (Fin 6)) : CtorState :=
  ⟨st.cnt, st.faces, st.draws ++ more⟩

/-! ## Notions used to state the further properties of moves, heuristics and selector -/

/-- The face a move turns: the row of the `switch` of `Cube::applyMove` it belongs to. -/
def turningFace : Move → Fin 6
  | .U | .U_PRIME | .U2 => UP
  | .D | .D_PRIME | .D2 => DOWN
  | .L | .L_PRIME | .L2 => LEFT
  | .R | .R_PRIME | .R2 => RIGHT
  | .F | .F_PRIME | .F2 => FRONT
  | .B | .B_PRIME | .B2 => BACK

/-- The face opposite to a face: Up/Down, Left/Right, Front/Back. -/
def oppositeFace (s : Fin 6) : Fin 6 :=
  if s = UP then DOWN else if s = DOWN then UP else if s = LEFT then RIGHT
  else if s = RIGHT then LEFT else if s = FRONT then BACK else FRONT

/-- The six clockwise quarter turns. -/
def clockwiseTurns : List Move := [.U, .D, .L, .R, .F, .B]

/-- The six counter-clockwise quarter turns. -/
def counterClockwiseTurns : List Move :=
  [.U_PRIME, .D_PRIME, .L_PRIME, .R_PRIME, .F_PRIME, .B_PRIME]

/-- The row-major index `3 * r + c` of row `r`, column `c` of a face. -/
def gridIndex (r c : Fin 3) : Fin 9 := ⟨3 * r.val + c.val, by omega⟩

/-- The row or column `2 - r` mirrored on a face. -/
def mirror (r : Fin 3) : Fin 3 := ⟨2 - r.val, by omega⟩

/-- The largest number of equal-coloured stickers on face `s`: the maximum over the six
colours of the colour's count on the face. -/
def faceMajority (cb : Cube) (s : Fin 6) : Nat :=
  Finset.univ.sup fun k : Color => stickerCount cb s k

/-- The number of pairs (face, index) with index other than 4 whose sticker differs from
the sticker at index 4 of the same face. -/
def mismatchCount (cb : Cube) : Nat :=
  (Finset.univ.filter (fun p : Cell => p.2 ≠ 4 ∧ cb p.1 p.2 ≠ cb p.1 4)).card

/-- Index `i` names a catalog entry whose score is least over the whole catalog. -/
def isMinimalIndex (state : AStarState) (moves : List Move) (i : Nat) : Bool :=
  match moves[i]? with
  | some m => decide (∀ m' ∈ moves, fScore state m ≤ fScore state m')
  | none => false

/-- A cube whose Down and Front faces are both uniform, the four other faces being
mixed. -/
def tiedCube : Cube :=
  fun s i => if s = DOWN then Color.YELLOW else if s = FRONT then Color.BLUE else mixedCube s i

/-- A second sample selector state: the cube of `sampleState` with cumulative cost 7. -/
def laterState : AStarState := ⟨majorityCube, ⟨7⟩, true⟩

/-- A short catalog of three moves. -/
def shortCatalog : List Move := [.U, .U_PRIME, .F2]

/-! ## The move engine as a permutation of the 54 cells -/

theorem applyMove_eq_source {α : Type} (m : Move) (g : Grid α) (s : Fin 6) (i : Fin 9) :
    applyMove m g s i = g (cellSource m (s, i)).1 (cellSource m (s, i)).2 := by
  cases m <;> fin_cases s <;> fin_cases i <;> rfl

set_option maxRecDepth 100000 in
theorem cellSource_inverse_left :
    ∀ (m : Move) (p : Cell), cellSource (inverseMove m) (cellSource m p) = p := by
  decide

theorem inverseMove_inverseMove (m : Move) : inverseMove (inverseMove m) = m := by
  cases m <;> rfl

theorem cellSource_inverse_right (m : Move) (p : Cell) :
    cellSource m (cellSource (inverseMove m) p) = p := by
  have key := cellSource_inverse_left (inverseMove m) p
  rwa [inverseMove_inverseMove] at key

theorem applyMove_inverse {α : Type} (m : Move) (g : Grid α) :
    applyMove (inverseMove m) (applyMove m g) = g := by
  funext s i
  rw [applyMove_eq_source, applyMove_eq_source, Prod.mk.eta, cellSource_inverse_right]

theorem colourCount_applyMove (m : Move) (cb : Cube) (k : Color) :
    colourCount (applyMove m cb) k = colourCount cb k := by
  unfold colourCount
  refine Finset.card_bij (fun p _ => cellSource m p) ?_ ?_ ?_
  · intro p hp
    simp only [Finset.mem_filter, Finset.mem_univ, true_and] at hp ⊢
    rw [← hp, applyMove_eq_source]
  · intro p _ q _ hpq
    have hcongr := congrArg (cellSource (inverseMove m)) hpq
    rwa [cellSource_inverse_left, cellSource_inverse_left] at hcongr
  · intro q hq
    simp only [Finset.mem_filter, Finset.mem_univ, true_and] at hq
    refine ⟨cellSource (inverseMove m) q, ?_, cellSource_inverse_right m q⟩
    simp only [Finset.mem_filter, Finset.mem_univ, true_and]
    rw [applyMove_eq_source, Prod.mk.eta, cellSource_inverse_right]
    exact hq

theorem colourCount_applyMoves (ms : List Move) (cb : Cube) (k : Color) :
    colourCount (applyMoves ms cb) k = colourCount cb k := by
  induction ms generalizing cb with
  | nil => rfl
  | cons m ms ih =>
    show colourCount (applyMoves ms (applyMove m cb)) k = colourCount cb k
    rw [ih, colourCount_applyMove]

/-! ## Claims on the move engine -/

/-- C1 (permutation closure): each of the twelve quarter-turn moves applied four times in a
row, and each of the six half-turn moves applied twice, gives back the cube it started
from, cell for cell. -/
theorem C1_permutation_closure (cb : Cube) :
    (∀ m ∈ quarterTurns, applyMove m (applyMove m (applyMove m (applyMove m cb))) = cb) ∧
    (∀ m ∈ halfTurns, applyMove m (applyMove m cb) = cb) := by
  constructor
  · intro m hm
    simp only [quarterTurns, List.mem_cons, List.mem_singleton, List.not_mem_nil,
      or_false] at hm
    funext s i
    rcases hm with rfl | rfl | rfl | rfl | rfl | rfl | rfl | rfl | rfl | rfl | rfl | rfl <;>
      fin_cases s <;> fin_cases i <;> rfl
  · intro m hm
    simp only [halfTurns, List.mem_cons, List.mem_singleton, List.not_mem_nil,
      or_false] at hm
    funext s i
    rcases hm with rfl | rfl | rfl | rfl | rfl | rfl <;>
      fin_cases s <;> fin_cases i <;> rfl

/-- Witness of C1 on the sample cube: `U` is a quarter turn and `U2` a half turn. -/
theorem C1_permutation_closure_witness :
    (Move.U ∈ quarterTurns ∧
      applyMove .U (applyMove .U (applyMove .U (applyMove .U solvedCube))) = solvedCube) ∧
    (Move.U2 ∈ halfTurns ∧ applyMove .U2 (applyMove .U2 solvedCube) = solvedCube) :=
  ⟨⟨by decide, (C1_permutation_closure solvedCube).1 .U (by decide)⟩,
    ⟨by decide, (C1_permutation_closure solvedCube).2 .U2 (by decide)⟩⟩

/-- C2 (inverse pairing): on each of the six axes, the clockwise quarter turn followed by
the counter-clockwise quarter turn of the same axis gives back the original cube. -/
theorem C2_inverse_pairing (cb : Cube) :
    ∀ p ∈ inversePairs, applyMove p.2 (applyMove p.1 cb) = cb := by
  intro p hp
  simp only [inversePairs, List.mem_cons, List.mem_singleton, List.not_mem_nil,
    or_false] at hp
  have hinv : p.2 = inverseMove p.1 := by
    rcases hp with rfl | rfl | rfl | rfl | rfl | rfl <;> rfl
  rw [hinv]
  exact applyMove_inverse p.1 cb

/-- Witness of C2: the pair `(F, F')` on the sample cube turned once by `U`. -/
theorem C2_inverse_pairing_witness :
    (Move.F, Move.F_PRIME) ∈ inversePairs ∧
      applyMove .F_PRIME (applyMove .F (applyMove .U solvedCube)) = applyMove .U solvedCube :=
  ⟨by decide, C2_inverse_pairing (applyMove .U solvedCube) (.F, .F_PRIME) (by decide)⟩

/-- C3 (count invariant): after any finite sequence of moves every colour occupies as many
of the 54 cells as before; in particular nine of each colour stay nine of each. -/
theorem C3_count_invariant (cb : Cube) (ms : List Move) :
    (∀ k, colourCount (applyMoves ms cb) k = colourCount cb k) ∧
    ((∀ k, colourCount cb k = 9) → ∀ k, colourCount (applyMoves ms cb) k = 9) := by
  refine ⟨fun k => colourCount_applyMoves ms cb k, fun h9 k => ?_⟩
  rw [colourCount_applyMoves, h9]

/-- Witness of C3: the sample cube has nine cells of each colour and keeps them under the
sequence `U, F', R2`. -/
theorem C3_count_invariant_witness :
    (∀ k, colourCount solvedCube k = 9) ∧
      ∀ k, colourCount (applyMoves [.U, .F_PRIME, .R2] solvedCube) k = 9 :=
  ⟨by decide, (C3_count_invariant solvedCube [.U, .F_PRIME, .R2]).2 (by decide)⟩

theorem carries_iff (m : Move) (p q : Cell) : carries m p q ↔ q = cellDest m p := by
  constructor
  · intro hc
    have hmark := hc (markedCube [p])
    rw [applyMove_eq_source] at hmark
    simp only [markedCube, Prod.mk.eta, List.mem_singleton, if_true] at hmark
    have hsrc : cellSource m q = p := by
      by_contra hne
      rw [if_neg hne] at hmark
      exact absurd hmark (by decide)
    rw [← hsrc]
    exact (cellSource_inverse_left m q).symm
  · rintro rfl cb
    have hback : cellSource m (cellDest m p) = p := cellSource_inverse_right m p
    rw [applyMove_eq_source, Prod.mk.eta, hback]

theorem forall2_carries_iff (m : Move) (t dst : List Cell) :
    List.Forall₂ (carries m) t dst ↔ dst = t.map (cellDest m) := by
  induction t generalizing dst with
  | nil => simp
  | cons p t ih =>
    cases dst with
    | nil => simp
    | cons q dst => simp [ih, carries_iff]

theorem keepsCubie_iff (m : Move) (t : List Cell) :
    keepsCubie m t ↔ ∃ t' ∈ cornerCubies, sameCells (t.map (cellDest m)) t' := by
  unfold keepsCubie
  constructor
  · rintro ⟨dst, hdst, hcorner⟩
    rw [forall2_carries_iff] at hdst
    rwa [hdst] at hcorner
  · intro hcorner
    exact ⟨t.map (cellDest m), (forall2_carries_iff m t _).2 rfl, hcorner⟩

set_option maxRecDepth 100000 in
/-- C4 (physical adjacency) fails for the quarter turn `U`. The three cells of each listed
triple lie on one cubie of the renderer, but `U` carries the stickers of the corner
`{UP6, FRONT0, LEFT2}` to `UP0`, `RIGHT0` and `FRONT2`, which are not the cells of any
corner: on the cube marked red on that corner, the red stickers end on the cells
`UP0`, `RIGHT0`, `FRONT2`. Only the half turns keep every corner together. -/
theorem C4_quarter_turn_tears_corner :
    (∀ t ∈ cornerCubies, ∀ p ∈ t, ∀ q ∈ t, cubieOf p = cubieOf q) ∧
    [(UP, 6), (FRONT, 0), (LEFT, 2)] ∈ cornerCubies ∧
    carries .U (UP, 6) (UP, 0) ∧ carries .U (FRONT, 0) (RIGHT, 0) ∧
    carries .U (LEFT, 2) (FRONT, 2) ∧
    applyMove .U (markedCube [(UP, 6), (FRONT, 0), (LEFT, 2)]) =
      markedCube [(UP, 0), (RIGHT, 0), (FRONT, 2)] ∧
    ¬ keepsCubie .U [(UP, 6), (FRONT, 0), (LEFT, 2)] ∧
    (∀ m : Move, (∀ t ∈ cornerCubies, keepsCubie m t) ↔ m ∈ halfTurns) := by
  refine ⟨by decide, by decide, ?_, ?_, ?_, by decide, ?_, ?_⟩
  · rw [carries_iff]; decide
  · rw [carries_iff]; decide
  · rw [carries_iff]; decide
  · rw [keepsCubie_iff]; decide
  · intro m
    simp only [keepsCubie_iff]
    revert m
    decide

/-! ## Counting the stickers of a face -/

theorem foldl_update_count (c : Fin 9 → Fin 6) (l : List (Fin 9)) (init : Fin 6 → Nat)
    (j : Fin 6) :
    (l.foldl (fun cnt i => Function.update cnt (c i) (cnt (c i) + 1)) init) j =
      init j + l.countP (fun i => c i = j) := by
  induction l generalizing init with
  | nil => simp
  | cons a l ih =>
    rw [List.foldl_cons, ih, List.countP_cons]
    by_cases hj : c a = j
    · subst hj
      simp
      omega
    · have hne : j ≠ c a := fun hEq => hj hEq.symm
      simp [Function.update_noteq hne, hj]

theorem Color.toFin_injective : Function.Injective Color.toFin := by decide

theorem Color.toFin_ofFin (j : Fin 6) : (Color.ofFin j).toFin = j := by
  revert j; decide

theorem countColors_eq (row : Fin 9 → Color) (j : Fin 6) :
    countColors row j = (List.finRange 9).countP (fun i => (row i).toFin = j) := by
  unfold countColors
  rw [foldl_update_count]
  simp

theorem countColors_toFin (cb : Cube) (s : Fin 6) (k : Color) :
    countColors (cb s) k.toFin = stickerCount cb s k := by
  rw [countColors_eq]
  unfold stickerCount
  congr 1
  funext i
  simp [Color.toFin_injective.eq_iff]

theorem sum_countP (c : Fin 9 → Fin 6) (l : List (Fin 9)) :
    ∑ j : Fin 6, l.countP (fun i => c i = j) = l.length := by
  induction l with
  | nil => simp
  | cons a l ih =>
    simp only [List.countP_cons, Finset.sum_add_distrib, ih, List.length_cons]
    simp

theorem sum_countColors (row : Fin 9 → Color) : ∑ j : Fin 6, countColors row j = 9 := by
  simp only [countColors_eq]
  rw [sum_countP]
  simp

theorem fin6_cases (P : Fin 6 → Prop) (h0 : P 0) (h1 : P 1) (h2 : P 2) (h3 : P 3)
    (h4 : P 4) (h5 : P 5) : ∀ k, P k := by
  intro k
  fin_cases k <;> assumption

theorem le_maxElement (cnt : Fin 6 → Nat) (k : Fin 6) : cnt k ≤ cnt (maxElement cnt) := by
  unfold maxElement
  simp only [List.foldl]
  revert k
  apply fin6_cases <;> split_ifs <;> omega

theorem stickerCount_le_faceMax (cb : Cube) (s : Fin 6) (k : Color) :
    stickerCount cb s k ≤ faceMax cb s := by
  rw [← countColors_toFin]
  exact le_maxElement _ _

theorem faceMax_eq_stickerCount (cb : Cube) (s : Fin 6) :
    faceMax cb s = stickerCount cb s (Color.ofFin (maxElement (countColors (cb s)))) := by
  rw [← countColors_toFin, Color.toFin_ofFin]
  rfl

theorem stickerCount_le_nine (cb : Cube) (s : Fin 6) (k : Color) : stickerCount cb s k ≤ 9 := by
  unfold stickerCount
  exact (List.countP_le_length _).trans (by simp)

theorem faceMax_le_nine (cb : Cube) (s : Fin 6) : faceMax cb s ≤ 9 := by
  rw [faceMax_eq_stickerCount]
  exact stickerCount_le_nine _ _ _

theorem two_le_faceMax (cb : Cube) (s : Fin 6) : 2 ≤ faceMax cb s := by
  by_contra hlt
  have hall : ∀ j, countColors (cb s) j ≤ 1 := by
    intro j
    have hj := le_maxElement (countColors (cb s)) j
    unfold faceMax at hlt
    omega
  have hsum := sum_countColors (cb s)
  rw [Fin.sum_univ_six] at hsum
  have b0 := hall 0
  have b1 := hall 1
  have b2 := hall 2
  have b3 := hall 3
  have b4 := hall 4
  have b5 := hall 5
  omega

theorem foldl_best_spec (v : Fin 6 → Nat) (l : List (Fin 6)) (acc : Fin 6 × Nat)
    (hacc : acc.2 ≤ v acc.1) :
    (l.foldl (fun (acc : Fin 6 × Nat) s => if v s > acc.2 then (s, v s) else acc) acc).2 ≤
        v (l.foldl (fun (acc : Fin 6 × Nat) s => if v s > acc.2 then (s, v s) else acc) acc).1 ∧
      acc.2 ≤
        (l.foldl (fun (acc : Fin 6 × Nat) s => if v s > acc.2 then (s, v s) else acc) acc).2 ∧
      ∀ s ∈ l, v s ≤
        (l.foldl (fun (acc : Fin 6 × Nat) s => if v s > acc.2 then (s, v s) else acc) acc).2 := by
  induction l generalizing acc with
  | nil => simp [hacc]
  | cons a l ih =>
    rw [List.foldl_cons]
    by_cases hgt : v a > acc.2
    · rw [if_pos hgt]
      obtain ⟨h1, h2, h3⟩ := ih (a, v a) (le_refl _)
      refine ⟨h1, ?_, ?_⟩
      · exact (Nat.le_of_lt hgt).trans h2
      · intro s hs
        rcases List.mem_cons.1 hs with rfl | hs
        · exact h2
        · exact h3 s hs
    · rw [if_neg hgt]
      obtain ⟨h1, h2, h3⟩ := ih acc hacc
      refine ⟨h1, h2, ?_⟩
      intro s hs
      rcases List.mem_cons.1 hs with rfl | hs
      · exact (Nat.le_of_not_lt hgt).trans h2
      · exact h3 s hs

theorem faceMax_le_closest (cb : Cube) (s : Fin 6) :
    faceMax cb s ≤ faceMax cb (findClosestToPerfectSide cb) := by
  obtain ⟨h1, _, h3⟩ :=
    foldl_best_spec (faceMax cb) (List.finRange 6) ((0 : Fin 6), 0) (Nat.zero_le _)
  exact (h3 s (List.mem_finRange s)).trans h1

theorem bestMajority_eq (cb : Cube) :
    bestMajority cb = faceMax cb (findClosestToPerfectSide cb) := by
  apply le_antisymm
  · refine Finset.sup_le fun s _ => Finset.sup_le fun k _ => ?_
    exact (stickerCount_le_faceMax cb s k).trans (faceMax_le_closest cb s)
  · rw [faceMax_eq_stickerCount]
    unfold bestMajority
    refine le_trans ?_ (Finset.le_sup (Finset.mem_univ (findClosestToPerfectSide cb)))
    exact Finset.le_sup (f := fun k : Color => stickerCount cb (findClosestToPerfectSide cb) k)
      (Finset.mem_univ _)

theorem remainingPixels_eq (cb : Cube) (s : Fin 6) :
    remainingPixels s cb = 9 - faceMax cb s := by
  have hle := faceMax_le_nine cb s
  unfold remainingPixels
  omega

theorem stickerCount_eq_nine_iff (cb : Cube) (s : Fin 6) (k : Color) :
    stickerCount cb s k = 9 ↔ ∀ i, cb s i = k := by
  unfold stickerCount
  have hlen : (List.finRange 9).length = 9 := by simp
  have hcount := List.countP_eq_length (p := fun i => decide (cb s i = k))
    (l := List.finRange 9)
  rw [hlen] at hcount
  rw [hcount]
  simp

theorem faceMax_closest_eq_nine_iff (cb : Cube) :
    faceMax cb (findClosestToPerfectSide cb) = 9 ↔ ∃ s, uniformFace cb s := by
  constructor
  · intro h9
    rw [faceMax_eq_stickerCount, stickerCount_eq_nine_iff] at h9
    exact ⟨_, _, h9⟩
  · rintro ⟨s, k, hk⟩
    have h1 := (stickerCount_eq_nine_iff cb s k).2 hk
    have h2 := stickerCount_le_faceMax cb s k
    have h3 := faceMax_le_closest cb s
    have h4 := faceMax_le_nine cb (findClosestToPerfectSide cb)
    omega

theorem h_eq (cb : Cube) :
    h cb = (9 - bestMajority cb) / 3 + (9 - bestMajority cb) % 3 := by
  unfold h
  rw [remainingPixels_eq, bestMajority_eq]

theorem h_le_three (cb : Cube) : h cb ≤ 3 := by
  have hlo := two_le_faceMax cb (findClosestToPerfectSide cb)
  have hhi := faceMax_le_nine cb (findClosestToPerfectSide cb)
  unfold h
  rw [remainingPixels_eq]
  simp only []
  omega

/-! ## Claims on the heuristic and the cost model -/

/-- C7 (heuristic bounds): on every cube `h` is 0, 1, 2 or 3, and the value
`9 - max_count` computed on the selected face is at most 7. -/
theorem C7_heuristic_bounds (cb : Cube) :
    (h cb = 0 ∨ h cb = 1 ∨ h cb = 2 ∨ h cb = 3) ∧
    remainingPixels (findClosestToPerfectSide cb) cb ≤ 7 := by
  have hlo := two_le_faceMax cb (findClosestToPerfectSide cb)
  have hhi := faceMax_le_nine cb (findClosestToPerfectSide cb)
  unfold h
  rw [remainingPixels_eq]
  constructor
  · simp only []
    omega
  · omega

/-- C8 (heuristic zero): `h` is 0 exactly when some face shows one colour on all nine
stickers; in particular a uniform Up face makes `h` zero whatever the other faces hold. -/
theorem C8_heuristic_zero (cb : Cube) :
    (h cb = 0 ↔ ∃ s, uniformFace cb s) ∧ (uniformFace cb UP → h cb = 0) := by
  have hiff : h cb = 0 ↔ ∃ s, uniformFace cb s := by
    rw [← faceMax_closest_eq_nine_iff]
    have hlo := two_le_faceMax cb (findClosestToPerfectSide cb)
    have hhi := faceMax_le_nine cb (findClosestToPerfectSide cb)
    unfold h
    rw [remainingPixels_eq]
    simp only []
    omega
  exact ⟨hiff, fun hup => hiff.2 ⟨UP, hup⟩⟩

set_option maxRecDepth 100000 in
/-- Witness of C8: the Up face of `upUniformCube` is uniform, no other face of it is, and
its `h` is 0. -/
theorem C8_heuristic_zero_witness :
    uniformFace upUniformCube UP ∧ (∀ s, s ≠ UP → ¬ uniformFace upUniformCube s) ∧
      h upUniformCube = 0 :=
  ⟨by decide, by decide, (C8_heuristic_zero upUniformCube).2 (by decide)⟩

/-- C9 (heuristic definition): `h = r / 3 + r % 3` with `r = 9 - M`, where `M` is the
largest number of equal-coloured stickers on one face and `r` is the value of
`remainingPixels` on the selected face; when some face has eight stickers of one colour
and no face is uniform, `r = 1` and `h = 1`. -/
theorem C9_heuristic_definition (cb : Cube) :
    h cb = (9 - bestMajority cb) / 3 + (9 - bestMajority cb) % 3 ∧
    remainingPixels (findClosestToPerfectSide cb) cb = 9 - bestMajority cb ∧
    ((∃ s k, stickerCount cb s k = 8) → (∀ s, ¬ uniformFace cb s) →
      9 - bestMajority cb = 1 ∧ h cb = 1) := by
  refine ⟨h_eq cb, ?_, ?_⟩
  · rw [remainingPixels_eq, bestMajority_eq]
  · rintro ⟨s, k, h8⟩ hnone
    have hge : 8 ≤ bestMajority cb := by
      rw [bestMajority_eq, ← h8]
      exact (stickerCount_le_faceMax cb s k).trans (faceMax_le_closest cb s)
    have hle : bestMajority cb ≤ 9 := by
      rw [bestMajority_eq]
      exact faceMax_le_nine _ _
    have hne : bestMajority cb ≠ 9 := by
      intro h9
      rw [bestMajority_eq] at h9
      obtain ⟨s', hs'⟩ := (faceMax_closest_eq_nine_iff cb).1 h9
      exact hnone s' hs'
    have hM : bestMajority cb = 8 := by omega
    rw [h_eq, hM]
    exact ⟨rfl, rfl⟩

set_option maxRecDepth 100000 in
/-- Witness of C9: the Up face of `majorityCube` has eight white stickers, no face of it
is uniform, and its `h` is 1. -/
theorem C9_heuristic_definition_witness :
    (∃ s k, stickerCount majorityCube s k = 8) ∧ (∀ s, ¬ uniformFace majorityCube s) ∧
      9 - bestMajority majorityCube = 1 ∧ h majorityCube = 1 :=
  ⟨⟨UP, .WHITE, by decide⟩, by decide,
    (C9_heuristic_definition majorityCube).2.2 ⟨UP, .WHITE, by decide⟩ (by decide)⟩

/-- C10 (cost correctness): `moveCost` is 2 on the six half-turn moves and 1 on each of the
other twelve moves, which are the quarter turns. -/
theorem C10_moveCost (m : Move) :
    moveCost m = (if m ∈ halfTurns then 2 else 1) ∧
    (m ∈ halfTurns ∨ m ∈ quarterTurns) ∧ ¬ (m ∈ halfTurns ∧ m ∈ quarterTurns) := by
  cases m <;> decide

/-! ## The scoring loop of the selector -/

theorem fScore_le_max (state : AStarState) (m : Move) : fScore state m ≤ UINT64_MAX := by
  unfold fScore f UINT64_MAX
  have hlt := Nat.mod_lt ((candidate state m).gCost + h (candidate state m).cube)
    (show 0 < 2 ^ 64 by norm_num)
  omega

theorem minScore_le_start (state : AStarState) (b : Nat) (ms : List Move) :
    minScore state b ms ≤ b := by
  induction ms generalizing b with
  | nil => exact le_refl _
  | cons m ms ih =>
    show minScore state (min b (fScore state m)) ms ≤ b
    exact (ih _).trans (Nat.min_le_left _ _)

theorem minScore_le_mem (state : AStarState) (b : Nat) (ms : List Move) (m : Move)
    (hm : m ∈ ms) : minScore state b ms ≤ fScore state m := by
  induction ms generalizing b with
  | nil => cases hm
  | cons a ms ih =>
    show minScore state (min b (fScore state a)) ms ≤ fScore state m
    rcases List.mem_cons.1 hm with rfl | hm
    · exact (minScore_le_start state _ ms).trans (Nat.min_le_right _ _)
    · exact ih _ hm

theorem minScore_attained (state : AStarState) (b : Nat) (ms : List Move) :
    minScore state b ms = b ∨ ∃ m ∈ ms, fScore state m = minScore state b ms := by
  induction ms generalizing b with
  | nil => exact Or.inl rfl
  | cons a ms ih =>
    show minScore state (min b (fScore state a)) ms = b ∨
      ∃ m ∈ a :: ms, fScore state m = minScore state (min b (fScore state a)) ms
    rcases ih (min b (fScore state a)) with heq | ⟨m, hm, hmin⟩
    · rcases Nat.le_total b (fScore state a) with hle | hle
      · left; rw [heq, Nat.min_eq_left hle]
      · right
        refine ⟨a, List.mem_cons_self _ _, ?_⟩
        rw [heq, Nat.min_eq_right hle]
    · exact Or.inr ⟨m, List.mem_cons_of_mem _ hm, hmin⟩

theorem scoreLoop_spec (state : AStarState) (ms : List Move) (i : Nat) (acc : Scan) :
    (scoreLoop state ms i acc).frontier = acc.frontier ++ ms.map (candidate state) ∧
    (scoreLoop state ms i acc).bestF = minScore state acc.bestF ms ∧
    (scoreLoop state ms i acc).bestIndices =
      (if acc.bestF = minScore state acc.bestF ms then acc.bestIndices else []) ++
        tiedFrom state (minScore state acc.bestF ms) ms i := by
  induction ms generalizing i acc with
  | nil => simp [scoreLoop, minScore, tiedFrom]
  | cons m ms ih =>
    obtain ⟨h1, h2, h3⟩ := ih (i + 1) (scoreStep state acc i m)
    have hrest := minScore_le_start state (min acc.bestF (fScore state m)) ms
    have hunf : minScore state acc.bestF (m :: ms) =
        minScore state (min acc.bestF (fScore state m)) ms := rfl
    show (scoreLoop state ms (i + 1) (scoreStep state acc i m)).frontier = _ ∧
      (scoreLoop state ms (i + 1) (scoreStep state acc i m)).bestF = _ ∧
      (scoreLoop state ms (i + 1) (scoreStep state acc i m)).bestIndices = _
    rw [h1, h2, h3, hunf]
    simp only [tiedFrom]
    have hstep : scoreStep state acc i m =
        if fScore state m < acc.bestF then
          ⟨acc.frontier ++ [candidate state m], fScore state m, [i]⟩
        else if fScore state m = acc.bestF then
          ⟨acc.frontier ++ [candidate state m], acc.bestF, acc.bestIndices ++ [i]⟩
        else ⟨acc.frontier ++ [candidate state m], acc.bestF, acc.bestIndices⟩ := rfl
    rw [hstep]
    by_cases hlt : fScore state m < acc.bestF
    · have hmin : min acc.bestF (fScore state m) = fScore state m :=
        Nat.min_eq_right (Nat.le_of_lt hlt)
      rw [hmin] at hrest ⊢
      have hne : ¬ acc.bestF = minScore state (fScore state m) ms := by omega
      simp [hlt, hne, eq_comm]
    · by_cases heq : fScore state m = acc.bestF
      · have hmin : min acc.bestF (fScore state m) = acc.bestF :=
          Nat.min_eq_left (Nat.le_of_eq heq.symm)
        rw [hmin] at hrest ⊢
        by_cases hb : acc.bestF = minScore state acc.bestF ms
        · simp [heq, ← hb]
        · simp [heq, hb]
      · have hmin : min acc.bestF (fScore state m) = acc.bestF :=
          Nat.min_eq_left (by omega)
        rw [hmin] at hrest ⊢
        have hne : ¬ fScore state m = minScore state acc.bestF ms := by omega
        simp [hlt, heq, hne]

theorem mem_tiedFrom (state : AStarState) (b : Nat) (ms : List Move) (i j : Nat) :
    j ∈ tiedFrom state b ms i ↔ i ≤ j ∧ ∃ m, ms[j - i]? = some m ∧ fScore state m = b := by
  induction ms generalizing i with
  | nil => simp [tiedFrom]
  | cons a ms ih =>
    simp only [tiedFrom, List.mem_append, ih]
    constructor
    · rintro (hhead | ⟨hle, m, hm, hb⟩)
      · by_cases ha : fScore state a = b
        · rw [if_pos ha, List.mem_singleton] at hhead
          subst hhead
          exact ⟨le_refl _, a, by simp, ha⟩
        · rw [if_neg ha] at hhead
          cases hhead
      · refine ⟨by omega, m, ?_, hb⟩
        have hidx : j - i = (j - (i + 1)) + 1 := by omega
        rw [hidx, List.getElem?_cons_succ]
        exact hm
    · rintro ⟨hle, m, hm, hb⟩
      rcases Nat.eq_or_lt_of_le hle with heq | hlt
      · left
        subst heq
        simp only [Nat.sub_self, List.getElem?_cons_zero, Option.some.injEq] at hm
        subst hm
        simp [hb]
      · right
        refine ⟨by omega, m, ?_, hb⟩
        have hidx : j - i = (j - (i + 1)) + 1 := by omega
        rw [hidx, List.getElem?_cons_succ] at hm
        exact hm

theorem scoreAll_spec (state : AStarState) (moves : List Move) :
    (scoreAll state moves).frontier = moves.map (candidate state) ∧
    (scoreAll state moves).bestF = minScore state UINT64_MAX moves ∧
    (scoreAll state moves).bestIndices =
      tiedFrom state (minScore state UINT64_MAX moves) moves 0 := by
  obtain ⟨h1, h2, h3⟩ := scoreLoop_spec state moves 0 ⟨[], UINT64_MAX, []⟩
  refine ⟨by simpa using h1, h2, ?_⟩
  show (scoreLoop state moves 0 ⟨[], UINT64_MAX, []⟩).bestIndices = _
  rw [h3]
  simp

theorem minScore_attained_of_ne_nil (state : AStarState) (moves : List Move)
    (hne : moves ≠ []) :
    ∃ m ∈ moves, fScore state m = minScore state UINT64_MAX moves := by
  rcases minScore_attained state UINT64_MAX moves with heq | hex
  · obtain ⟨m, hm⟩ := List.exists_mem_of_ne_nil moves hne
    refine ⟨m, hm, ?_⟩
    have hle := minScore_le_mem state UINT64_MAX moves m hm
    have hmax := fScore_le_max state m
    omega
  · exact hex

theorem bestIndices_ne_nil (state : AStarState) (moves : List Move) (hne : moves ≠ []) :
    (scoreAll state moves).bestIndices ≠ [] := by
  obtain ⟨m, hm, hmin⟩ := minScore_attained_of_ne_nil state moves hne
  obtain ⟨k, hk, hget⟩ := List.getElem_of_mem hm
  have hmem : k ∈ (scoreAll state moves).bestIndices := by
    rw [(scoreAll_spec state moves).2.2, mem_tiedFrom]
    refine ⟨Nat.zero_le _, m, ?_, hmin⟩
    rw [Nat.sub_zero, List.getElem?_eq_getElem hk, hget]
  exact List.ne_nil_of_mem hmem

theorem AstarStep_spec (state : AStarState) (moves : List Move) (draw : Nat)
    (hdraw : draw < (scoreAll state moves).bestIndices.length) :
    ∃ chosenIndex m, (scoreAll state moves).bestIndices[draw]? = some chosenIndex ∧
      moves[chosenIndex]? = some m ∧
      fScore state m = minScore state UINT64_MAX moves ∧
      AstarStep state moves draw = some (committed state m) := by
  obtain ⟨hfront, _, htied⟩ := scoreAll_spec state moves
  have hget : (scoreAll state moves).bestIndices[draw]? =
      some ((scoreAll state moves).bestIndices[draw]) := List.getElem?_eq_getElem hdraw
  have hmem : (scoreAll state moves).bestIndices[draw] ∈ (scoreAll state moves).bestIndices :=
    List.getElem_mem hdraw
  generalize (scoreAll state moves).bestIndices[draw] = idx at hget hmem
  have hmem2 := hmem
  rw [htied, mem_tiedFrom] at hmem2
  obtain ⟨_, m, hm, hmin⟩ := hmem2
  rw [Nat.sub_zero] at hm
  refine ⟨idx, m, hget, hm, hmin, ?_⟩
  have hfr : (scoreAll state moves).frontier[idx]? = some (candidate state m) := by
    rw [hfront, List.getElem?_map, hm]
    rfl
  have hnonempty : (scoreAll state moves).bestIndices.isEmpty = false := by
    cases hbi : (scoreAll state moves).bestIndices with
    | nil => rw [hbi] at hdraw; exact absurd hdraw (Nat.not_lt_zero _)
    | cons a l => rfl
  unfold AstarStep
  simp only [hnonempty, hget, Bool.false_eq_true, if_false, Option.bind_eq_bind,
    Option.some_bind, hfr, hm]
  rfl

/-! ## Claims on the selector -/

/-- C5 (selector minimality): with a non-empty catalog the tied set is not empty, and for
every draw from it `AstarStep` commits a move `m` of the catalog whose score
`f' = (g + moveCost m) + h (applyMove m C)`, computed in 64-bit arithmetic as `f` does, is
least among the scores of all moves of the catalog. When `g + 5 < 2 ^ 64` no addition
wraps and the same holds for the sums taken in the natural numbers. -/
theorem C5_selector_minimality (state : AStarState) (moves : List Move) (draw : Nat)
    (hne : moves ≠ []) (hdraw : draw < (scoreAll state moves).bestIndices.length) :
    (scoreAll state moves).bestIndices ≠ [] ∧
    ∃ m ∈ moves, AstarStep state moves draw = some (committed state m) ∧
      (∀ m' ∈ moves,
        f (applyMove m state.cube) ((state.player.cost + moveCost m) % 2 ^ 64) ≤
          f (applyMove m' state.cube) ((state.player.cost + moveCost m') % 2 ^ 64)) ∧
      (state.player.cost + 5 < 2 ^ 64 → ∀ m' ∈ moves,
        (state.player.cost + moveCost m) + h (applyMove m state.cube) ≤
          (state.player.cost + moveCost m') + h (applyMove m' state.cube)) := by
  refine ⟨bestIndices_ne_nil state moves hne, ?_⟩
  obtain ⟨idx, m, _, hm, hmin, hstep⟩ := AstarStep_spec state moves draw hdraw
  have hmem : m ∈ moves := List.getElem?_mem hm
  have hleast : ∀ m' ∈ moves, fScore state m ≤ fScore state m' := by
    intro m' hm'
    rw [hmin]
    exact minScore_le_mem state UINT64_MAX moves m' hm'
  refine ⟨m, hmem, hstep, hleast, ?_⟩
  intro hsmall m' hm'
  have hle := hleast m' hm'
  have hexact : ∀ a : Move, fScore state a =
      (state.player.cost + moveCost a) + h (applyMove a state.cube) := by
    intro a
    have hcost : moveCost a ≤ 2 := by unfold moveCost; split_ifs <;> omega
    have hh := h_le_three (applyMove a state.cube)
    show ((state.player.cost + moveCost a) % 2 ^ 64 + h (applyMove a state.cube)) % 2 ^ 64 = _
    rw [Nat.mod_eq_of_lt (by omega), Nat.mod_eq_of_lt (by omega)]
  rw [hexact, hexact] at hle
  exact hle

set_option maxRecDepth 100000 in
/-- Witness of C5: on `sampleState` with the catalog of all 18 moves and draw 0. -/
theorem C5_selector_minimality_witness :
    allMoves ≠ [] ∧ 0 < (scoreAll sampleState allMoves).bestIndices.length ∧
    ((scoreAll sampleState allMoves).bestIndices ≠ [] ∧
      ∃ m ∈ allMoves, AstarStep sampleState allMoves 0 = some (committed sampleState m) ∧
        (∀ m' ∈ allMoves,
          f (applyMove m sampleState.cube) ((sampleState.player.cost + moveCost m) % 2 ^ 64) ≤
            f (applyMove m' sampleState.cube)
              ((sampleState.player.cost + moveCost m') % 2 ^ 64)) ∧
        (sampleState.player.cost + 5 < 2 ^ 64 → ∀ m' ∈ allMoves,
          (sampleState.player.cost + moveCost m) + h (applyMove m sampleState.cube) ≤
            (sampleState.player.cost + moveCost m') + h (applyMove m' sampleState.cube))) :=
  ⟨by decide, by decide, C5_selector_minimality sampleState allMoves 0 (by decide) (by decide)⟩

/-- C6 (selector commit): for every draw from the tied set, which is possible only for a
non-empty catalog, `AstarStep` stores exactly the cube `applyMove m C` and the cost
`g + moveCost m` modulo `2 ^ 64`, where `m` is the catalog entry at the drawn index; the
flag `initialized` is left as it was and the printed line names `m`. -/
theorem C6_selector_commit (state : AStarState) (moves : List Move) (draw : Nat)
    (hdraw : draw < (scoreAll state moves).bestIndices.length) :
    moves ≠ [] ∧
    ∃ chosenIndex m r, (scoreAll state moves).bestIndices[draw]? = some chosenIndex ∧
      moves[chosenIndex]? = some m ∧
      AstarStep state moves draw = some r ∧
      r.state.cube = applyMove m state.cube ∧
      r.state.player.cost = (state.player.cost + moveCost m) % 2 ^ 64 ∧
      r.state.initialized = state.initialized ∧
      r.printed = some (m, heuristicAllFaces (applyMove m state.cube),
        (state.player.cost + moveCost m) % 2 ^ 64) := by
  obtain ⟨idx, m, hidx, hm, _, hstep⟩ := AstarStep_spec state moves draw hdraw
  refine ⟨?_, idx, m, committed state m, hidx, hm, hstep, rfl, rfl, rfl, rfl⟩
  rintro rfl
  cases hm

set_option maxRecDepth 100000 in
/-- Witness of C6: on `sampleState` with the catalog of all 18 moves and draw 0. -/
theorem C6_selector_commit_witness :
    0 < (scoreAll sampleState allMoves).bestIndices.length ∧
    (allMoves ≠ [] ∧
      ∃ chosenIndex m r, (scoreAll sampleState allMoves).bestIndices[0]? = some chosenIndex ∧
        allMoves[chosenIndex]? = some m ∧
        AstarStep sampleState allMoves 0 = some r ∧
        r.state.cube = applyMove m sampleState.cube ∧
        r.state.player.cost = (sampleState.player.cost + moveCost m) % 2 ^ 64 ∧
        r.state.initialized = sampleState.initialized ∧
        r.printed = some (m, heuristicAllFaces (applyMove m sampleState.cube),
          (sampleState.player.cost + moveCost m) % 2 ^ 64)) :=
  ⟨by decide, C6_selector_commit sampleState allMoves 0 (by decide)⟩

/-! ## The constructor fills the cube with nine stickers of each colour -/

theorem drawColour_not_full (cnt : Fin 6 → Nat) (l rest : List (Fin 6)) (c : Fin 6)
    (hdraw : drawColour cnt l = some (c, rest)) : cnt c ≠ 9 := by
  induction l with
  | nil => cases hdraw
  | cons a l ih =>
    unfold drawColour at hdraw
    split_ifs at hdraw with hfull
    · exact ih hdraw
    · simp only [Option.some.injEq, Prod.mk.injEq] at hdraw
      rw [← hdraw.1]
      exact hfull

theorem fillCell_inv (done : Finset Cell) (st st' : CtorState) (p : Cell) (hp : p ∉ done)
    (hinv : CtorInv done st) (hstep : fillCell st p = some st') :
    CtorInv (insert p done) st' := by
  unfold fillCell at hstep
  cases hdraw : drawColour st.cnt st.draws with
  | none => rw [hdraw] at hstep; cases hstep
  | some cr =>
    obtain ⟨c, rest⟩ := cr
    rw [hdraw] at hstep
    simp only [Option.some.injEq] at hstep
    subst hstep
    have hnot := drawColour_not_full _ _ _ _ hdraw
    obtain ⟨hcnt, hle⟩ := hinv
    have hold : ∀ j, (done.filter fun q =>
        ((st.faces.set p.1 p.2 (Color.ofFin c)) q.1 q.2).toFin = j) =
        done.filter fun q => (st.faces q.1 q.2).toFin = j := by
      intro j
      refine Finset.filter_congr fun q hq => ?_
      have hne : q ≠ p := fun hEq => hp (hEq ▸ hq)
      have hcell : (st.faces.set p.1 p.2 (Color.ofFin c)) q.1 q.2 = st.faces q.1 q.2 := by
        unfold Grid.set
        rw [if_neg]
        rintro ⟨h1, h2⟩
        exact hne (Prod.ext h1 h2)
      rw [hcell]
    have hnew : ((st.faces.set p.1 p.2 (Color.ofFin c)) p.1 p.2).toFin = c := by
      unfold Grid.set
      rw [if_pos ⟨rfl, rfl⟩, Color.toFin_ofFin]
    constructor
    · intro j
      show Function.update st.cnt c (st.cnt c + 1) j = _
      rw [Finset.filter_insert, hnew]
      by_cases hj : c = j
      · subst hj
        rw [if_pos rfl, Finset.card_insert_of_not_mem, hold, ← hcnt, Function.update_same]
        intro hmem
        exact hp (Finset.mem_of_mem_filter _ hmem)
      · rw [if_neg hj, hold, ← hcnt, Function.update_noteq (fun hEq => hj hEq.symm)]
    · intro j
      show Function.update st.cnt c (st.cnt c + 1) j ≤ 9
      by_cases hj : j = c
      · subst hj
        rw [Function.update_same]
        have := hle j
        omega
      · rw [Function.update_noteq hj]
        exact hle j

theorem fillCells_inv (ps : List Cell) (done : Finset Cell) (st st' : CtorState)
    (hnd : ps.Nodup) (hdisj : ∀ p ∈ ps, p ∉ done) (hinv : CtorInv done st)
    (hrun : fillCells ps st = some st') : CtorInv (done ∪ ps.toFinset) st' := by
  induction ps generalizing done st with
  | nil =>
    simp only [fillCells, Option.some.injEq] at hrun
    subst hrun
    simpa using hinv
  | cons p ps ih =>
    unfold fillCells at hrun
    cases hstep : fillCell st p with
    | none => rw [hstep] at hrun; cases hrun
    | some st1 =>
      rw [hstep] at hrun
      rw [List.nodup_cons] at hnd
      have hinv1 := fillCell_inv done st st1 p (hdisj p (List.mem_cons_self _ _)) hinv hstep
      have hdisj1 : ∀ q ∈ ps, q ∉ insert p done := by
        intro q hq hmem
        rcases Finset.mem_insert.1 hmem with rfl | hmem
        · exact hnd.1 hq
        · exact hdisj q (List.mem_cons_of_mem _ hq) hmem
      have hres := ih (insert p done) st1 hnd.2 hdisj1 hinv1 hrun
      have hset : done ∪ (p :: ps).toFinset = insert p done ∪ ps.toFinset := by
        ext q
        simp only [Finset.mem_union, List.toFinset_cons, Finset.mem_insert]
        tauto
      rw [hset]
      exact hres

theorem allCells_nodup : allCells.Nodup := by decide

theorem allCells_toFinset : allCells.toFinset = Finset.univ := by decide

theorem construct_counts (init : Cube) (draws : List (Fin 6)) (cb : Cube)
    (hrun : Cube.construct init draws = some cb) (k : Color) : colourCount cb k = 9 := by
  unfold Cube.construct at hrun
  cases hfill : fillCells allCells ⟨fun _ => 0, init, draws⟩ with
  | none => rw [hfill] at hrun; cases hrun
  | some st =>
    rw [hfill] at hrun
    simp only [Option.map_some', Option.some.injEq] at hrun
    subst hrun
    have hstart : CtorInv ∅ ⟨fun _ => 0, init, draws⟩ :=
      ⟨fun j => by simp, fun j => Nat.zero_le _⟩
    have hinv := fillCells_inv allCells ∅ _ st allCells_nodup (fun p _ => Finset.not_mem_empty p)
      hstart hfill
    rw [Finset.empty_union, allCells_toFinset] at hinv
    obtain ⟨hcnt, hle⟩ := hinv
    have hsum : (Finset.univ : Finset Cell).card =
        ∑ j : Fin 6, (Finset.univ.filter fun p : Cell => (st.faces p.1 p.2).toFin = j).card :=
      Finset.card_eq_sum_card_fiberwise fun p _ => Finset.mem_univ _
    have hcard : (Finset.univ : Finset Cell).card = 54 := by decide
    rw [hcard, Fin.sum_univ_six] at hsum
    simp only [← hcnt] at hsum
    have hk : colourCount st.faces k = st.cnt k.toFin := by
      rw [hcnt]
      unfold colourCount
      congr 1
      refine Finset.filter_congr fun p _ => ?_
      exact (Color.toFin_injective.eq_iff).symm
    rw [hk]
    have b0 := hle 0
    have b1 := hle 1
    have b2 := hle 2
    have b3 := hle 3
    have b4 := hle 4
    have b5 := hle 5
    have hcases : ∀ j : Fin 6, st.cnt j = 9 := by
      apply fin6_cases <;> omega
    exact hcases _

theorem drawColour_append (cnt : Fin 6 → Nat) (l more rest : List (Fin 6)) (c : Fin 6)
    (hdraw : drawColour cnt l = some (c, rest)) :
    drawColour cnt (l ++ more) = some (c, rest ++ more) := by
  induction l with
  | nil => cases hdraw
  | cons a l ih =>
    unfold drawColour at hdraw
    rw [List.cons_append]
    unfold drawColour
    split_ifs at hdraw ⊢ with hfull
    · exact ih hdraw
    · simp only [Option.some.injEq, Prod.mk.injEq] at hdraw ⊢
      exact ⟨hdraw.1, by rw [hdraw.2]⟩

theorem fillCell_extend (st st' : CtorState) (p : Cell) (more : List (Fin 6))
    (hstep : fillCell st p = some st') :
    fillCell (st.extend more) p = some (st'.extend more) := by
  unfold fillCell at hstep ⊢
  cases hdraw : drawColour st.cnt st.draws with
  | none => rw [hdraw] at hstep; cases hstep
  | some cr =>
    obtain ⟨c, rest⟩ := cr
    rw [hdraw] at hstep
    simp only [Option.some.injEq] at hstep
    subst hstep
    have happ := drawColour_append st.cnt st.draws more rest c hdraw
    have hdraws : (st.extend more).draws = st.draws ++ more := rfl
    have hcnt : (st.extend more).cnt = st.cnt := rfl
    rw [hdraws, hcnt, happ]
    rfl

theorem fillCells_extend (ps : List Cell) (st st' : CtorState) (more : List (Fin 6))
    (hrun : fillCells ps st = some st') :
    fillCells ps (st.extend more) = some (st'.extend more) := by
  induction ps generalizing st with
  | nil =>
    simp only [fillCells, Option.some.injEq] at hrun
    subst hrun
    rfl
  | cons p ps ih =>
    unfold fillCells at hrun ⊢
    cases hstep : fillCell st p with
    | none => rw [hstep] at hrun; cases hrun
    | some st1 =>
      rw [hstep] at hrun
      rw [fillCell_extend st st1 p more hstep]
      exact ih st1 hrun

theorem construct_append (init : Cube) (draws more : List (Fin 6)) (cb : Cube)
    (hrun : Cube.construct init draws = some cb) :
    Cube.construct init (draws ++ more) = some cb := by
  unfold Cube.construct at hrun ⊢
  cases hfill : fillCells allCells ⟨fun _ => 0, init, draws⟩ with
  | none => rw [hfill] at hrun; cases hrun
  | some st =>
    rw [hfill] at hrun
    have hext := fillCells_extend allCells _ st more hfill
    have hstart : (⟨fun _ => 0, init, draws⟩ : CtorState).extend more =
        ⟨fun _ => 0, init, draws ++ more⟩ := rfl
    rw [hstart] at hext
    rw [hext]
    exact hrun

theorem map_decide_eq_some_true {α : Type} [DecidableEq α] (o : Option α) (x : α)
    (hmap : (o.map fun a => decide (a = x)) = some true) : o = some x := by
  cases o with
  | none => cases hmap
  | some a => simpa using hmap

set_option maxRecDepth 100000 in
theorem construct_sampleDraws : Cube.construct mixedCube sampleDraws = some solvedCube :=
  map_decide_eq_some_true _ _ (by decide)

/-- C11 (construction invariant): whenever the loops of the constructor finish on the
given draws, the constructed cube holds each of the six colours on exactly nine of its 54
cells, whatever the array held before; further draws do not change the cube. -/
theorem C11_construction_invariant (init : Cube) (draws : List (Fin 6)) (cb : Cube)
    (hrun : Cube.construct init draws = some cb) :
    (∀ k, colourCount cb k = 9) ∧
    ∀ more, Cube.construct init (draws ++ more) = some cb :=
  ⟨construct_counts init draws cb hrun, fun more => construct_append init draws more cb hrun⟩

/-- Witness of C11: on `sampleDraws`, which makes the rejection loop run once, the
constructor started on `mixedCube` finishes with `solvedCube`. -/
theorem C11_construction_invariant_witness :
    Cube.construct mixedCube sampleDraws = some solvedCube ∧
    ((∀ k, colourCount solvedCube k = 9) ∧
      ∀ more, Cube.construct mixedCube (sampleDraws ++ more) = some solvedCube) :=
  ⟨construct_sampleDraws,
    C11_construction_invariant mixedCube sampleDraws solvedCube construct_sampleDraws⟩

/-! ## Further claims on the move engine -/

set_option maxRecDepth 100000 in
theorem cellSource_clockwise :
    ∀ m ∈ clockwiseTurns, ∀ r c : Fin 3,
      cellSource m (turningFace m, gridIndex c (mirror r)) = (turningFace m, gridIndex r c) := by
  decide

set_option maxRecDepth 100000 in
theorem cellSource_counterClockwise :
    ∀ m ∈ counterClockwiseTurns, ∀ r c : Fin 3,
      cellSource m (turningFace m, gridIndex (mirror c) r) = (turningFace m, gridIndex r c) := by
  decide

set_option maxRecDepth 100000 in
theorem cellSource_centre : ∀ (m : Move) (s : Fin 6), cellSource m (s, 4) = (s, 4) := by
  decide

set_option maxRecDepth 100000 in
theorem cellSource_comm_opposite :
    ∀ a b : Move, oppositeFace (turningFace a) = turningFace b →
      ∀ p : Cell, cellSource a (cellSource b p) = cellSource b (cellSource a p) := by
  decide

/-- C12 (face rotation): a clockwise quarter turn takes the sticker at row `r`, column
`c` of the turning face to row `c`, column `2 - r` of that face, a counter-clockwise
quarter turn takes it to row `2 - c`, column `r`, and the centre stays in place. -/
theorem C12_face_rotation (cb : Cube) (r c : Fin 3) :
    (∀ m ∈ clockwiseTurns,
      applyMove m cb (turningFace m) (gridIndex c (mirror r)) =
        cb (turningFace m) (gridIndex r c)) ∧
    (∀ m ∈ counterClockwiseTurns,
      applyMove m cb (turningFace m) (gridIndex (mirror c) r) =
        cb (turningFace m) (gridIndex r c)) ∧
    (∀ m ∈ clockwiseTurns ++ counterClockwiseTurns,
      applyMove m cb (turningFace m) 4 = cb (turningFace m) 4) := by
  refine ⟨fun m hm => ?_, fun m hm => ?_, fun m _ => ?_⟩
  · rw [applyMove_eq_source, cellSource_clockwise m hm]
  · rw [applyMove_eq_source, cellSource_counterClockwise m hm]
  · rw [applyMove_eq_source, cellSource_centre]

/-- Witness of C12: `R` and `R'` on `majorityCube`, for row 0 and column 1. -/
theorem C12_face_rotation_witness :
    (Move.R ∈ clockwiseTurns ∧
      applyMove .R majorityCube RIGHT (gridIndex 1 (mirror 0)) =
        majorityCube RIGHT (gridIndex 0 1)) ∧
    (Move.R_PRIME ∈ counterClockwiseTurns ∧
      applyMove .R_PRIME majorityCube RIGHT (gridIndex (mirror 1) 0) =
        majorityCube RIGHT (gridIndex 0 1)) :=
  ⟨⟨by decide, (C12_face_rotation majorityCube 0 1).1 .R (by decide)⟩,
    ⟨by decide, (C12_face_rotation majorityCube 0 1).2.1 .R_PRIME (by decide)⟩⟩

theorem applyMoves_centre (ms : List Move) (cb : Cube) (s : Fin 6) :
    applyMoves ms cb s 4 = cb s 4 := by
  induction ms generalizing cb with
  | nil => rfl
  | cons m ms ih =>
    show applyMoves ms (applyMove m cb) s 4 = cb s 4
    rw [ih, applyMove_eq_source, cellSource_centre]

/-- C17 (opposite faces commute): when `b` turns the face opposite to the face `a` turns,
applying `a` then `b` gives the same cube as applying `b` then `a`. -/
theorem C17_opposite_commute (cb : Cube) (a b : Move)
    (hopp : oppositeFace (turningFace a) = turningFace b) :
    applyMove b (applyMove a cb) = applyMove a (applyMove b cb) := by
  funext s i
  simp only [applyMove_eq_source, Prod.mk.eta]
  rw [cellSource_comm_opposite a b hopp]

/-- Witness of C17: `U` and `D2` on `majorityCube`. -/
theorem C17_opposite_commute_witness :
    oppositeFace (turningFace .U) = turningFace .D2 ∧
      applyMove .D2 (applyMove .U majorityCube) = applyMove .U (applyMove .D2 majorityCube) :=
  ⟨by decide, C17_opposite_commute majorityCube .U .D2 (by decide)⟩

/-- C18 (centres are fixed): after any finite sequence of moves the sticker at index 4 of
every face is the one that was there before. -/
theorem C18_centres_fixed (cb : Cube) (ms : List Move) (s : Fin 6) :
    applyMoves ms cb s 4 = cb s 4 :=
  applyMoves_centre ms cb s

/-! ## Further claims on the heuristics -/

theorem faceMax_eq_faceMajority (cb : Cube) (s : Fin 6) : faceMax cb s = faceMajority cb s := by
  apply le_antisymm
  · rw [faceMax_eq_stickerCount]
    exact Finset.le_sup (f := fun k : Color => stickerCount cb s k) (Finset.mem_univ _)
  · exact Finset.sup_le fun k _ => stickerCount_le_faceMax cb s k

theorem bestMajority_eq_sup (cb : Cube) :
    bestMajority cb = Finset.univ.sup fun s : Fin 6 => faceMajority cb s := rfl

theorem foldl_first_spec (v : Fin 6 → Nat) (l : List (Fin 6)) (acc : Fin 6 × Nat)
    (hl : l.Pairwise (· < ·)) :
    ((l.foldl (fun (acc : Fin 6 × Nat) s => if v s > acc.2 then (s, v s) else acc) acc) = acc ∧
        ∀ s ∈ l, v s ≤ acc.2) ∨
      ((l.foldl (fun (acc : Fin 6 × Nat) s => if v s > acc.2 then (s, v s) else acc) acc).2 =
          v (l.foldl (fun (acc : Fin 6 × Nat) s => if v s > acc.2 then (s, v s) else acc) acc).1 ∧
        acc.2 <
          (l.foldl (fun (acc : Fin 6 × Nat) s => if v s > acc.2 then (s, v s) else acc) acc).2 ∧
        ∀ s ∈ l,
          s < (l.foldl (fun (acc : Fin 6 × Nat) s => if v s > acc.2 then (s, v s) else acc) acc).1 →
          v s <
            (l.foldl (fun (acc : Fin 6 × Nat) s => if v s > acc.2 then (s, v s) else acc) acc).2) := by
  induction l generalizing acc with
  | nil => left; simp
  | cons a l ih =>
    rw [List.foldl_cons]
    rw [List.pairwise_cons] at hl
    obtain ⟨hal, hl⟩ := hl
    by_cases hgt : v a > acc.2
    · rw [if_pos hgt]
      right
      rcases ih (a, v a) hl with ⟨hsame, _⟩ | ⟨hval, hlt, hfirst⟩
      · rw [hsame]
        refine ⟨rfl, hgt, ?_⟩
        intro s hs hsa
        rcases List.mem_cons.1 hs with rfl | hs
        · exact absurd hsa (lt_irrefl _)
        · exact absurd hsa (not_lt.2 (le_of_lt (hal s hs)))
      · refine ⟨hval, lt_trans hgt hlt, ?_⟩
        intro s hs hsa
        rcases List.mem_cons.1 hs with rfl | hs
        · exact hlt
        · exact hfirst s hs hsa
    · rw [if_neg hgt]
      rcases ih acc hl with ⟨hsame, hall⟩ | ⟨hval, hlt, hfirst⟩
      · left
        refine ⟨hsame, ?_⟩
        intro s hs
        rcases List.mem_cons.1 hs with rfl | hs
        · exact Nat.le_of_not_lt hgt
        · exact hall s hs
      · right
        refine ⟨hval, hlt, ?_⟩
        intro s hs hsa
        rcases List.mem_cons.1 hs with rfl | hs
        · exact lt_of_le_of_lt (Nat.le_of_not_lt hgt) hlt
        · exact hfirst s hs hsa

theorem closest_le_of_faceMax_eq (cb : Cube) (s : Fin 6)
    (heq : faceMax cb s = faceMax cb (findClosestToPerfectSide cb)) :
    findClosestToPerfectSide cb ≤ s := by
  rcases foldl_first_spec (faceMax cb) (List.finRange 6) ((0 : Fin 6), 0)
    (List.pairwise_lt_finRange 6) with ⟨hsame, _⟩ | ⟨hval, _, hfirst⟩
  · have hzero : findClosestToPerfectSide cb = 0 := congrArg Prod.fst hsame
    rw [hzero]
    exact Fin.zero_le s
  · by_contra hnot
    have hlt := hfirst s (List.mem_finRange s) (not_le.1 hnot)
    rw [hval] at hlt
    exact absurd heq (ne_of_lt hlt)

/-- C15 (best-face tie-break): `findClosestToPerfectSide` returns a face whose largest
colour count is the largest over all six faces, and no face with a smaller index has
that count. -/
theorem C15_best_face_tie_break (cb : Cube) :
    faceMajority cb (findClosestToPerfectSide cb) = bestMajority cb ∧
    ∀ s, faceMajority cb s = bestMajority cb → findClosestToPerfectSide cb ≤ s := by
  have hbest : faceMajority cb (findClosestToPerfectSide cb) = bestMajority cb := by
    rw [← faceMax_eq_faceMajority, bestMajority_eq]
  refine ⟨hbest, fun s hs => ?_⟩
  apply closest_le_of_faceMax_eq
  rw [faceMax_eq_faceMajority, faceMax_eq_faceMajority, hs, hbest]

set_option maxRecDepth 100000 in
/-- Witness of C15: on `tiedCube` the faces Down and Front are both uniform and the
function returns Down, the first of the two. -/
theorem C15_best_face_tie_break_witness :
    faceMajority tiedCube FRONT = bestMajority tiedCube ∧
      findClosestToPerfectSide tiedCube = DOWN ∧ findClosestToPerfectSide tiedCube ≤ FRONT :=
  ⟨by decide, by decide, (C15_best_face_tie_break tiedCube).2 FRONT (by decide)⟩

theorem countP_eq_sum {α : Type} (p : α → Bool) (l : List α) :
    l.countP p = (l.map fun a => if p a then 1 else 0).sum := by
  induction l with
  | nil => rfl
  | cons a l ih =>
    rw [List.countP_cons, List.map_cons, List.sum_cons, ih]
    omega

theorem foldl_mismatch_inner (cb : Cube) (face : Fin 6) (l : List (Fin 9)) (score : Nat) :
    l.foldl
        (fun score i =>
          if i = 4 then score else if cb face i ≠ cb face 4 then score + 1 else score)
        score =
      score + l.countP (fun i => decide (i ≠ 4 ∧ cb face i ≠ cb face 4)) := by
  induction l generalizing score with
  | nil => rfl
  | cons a l ih =>
    rw [List.foldl_cons, ih, List.countP_cons]
    by_cases h4 : a = 4
    · simp [h4]
    · by_cases hne : cb face a = cb face 4
      · simp [h4, hne]
      · simp [h4, hne]
        omega

theorem foldl_mismatch_outer (cb : Cube) (faces : List (Fin 6)) (score : Nat) :
    faces.foldl
        (fun score face =>
          let center := cb face 4
          (List.finRange 9).foldl
            (fun score i =>
              if i = 4 then score else if cb face i ≠ center then score + 1 else score)
            score)
        score =
      score + (faces.map fun face =>
        (List.finRange 9).countP (fun i => decide (i ≠ 4 ∧ cb face i ≠ cb face 4))).sum := by
  induction faces generalizing score with
  | nil => rfl
  | cons a faces ih =>
    rw [List.foldl_cons, ih, List.map_cons, List.sum_cons]
    simp only [foldl_mismatch_inner]
    omega

theorem mismatchCount_eq_sum (cb : Cube) :
    mismatchCount cb = ((List.finRange 6).map fun face =>
      (List.finRange 9).countP (fun i => decide (i ≠ 4 ∧ cb face i ≠ cb face 4))).sum := by
  unfold mismatchCount
  rw [Finset.card_filter, Fintype.sum_prod_type, Fin.sum_univ_def]
  congr 1
  refine List.map_congr_left fun face _ => ?_
  rw [Fin.sum_univ_def, countP_eq_sum]
  congr 1
  refine List.map_congr_left fun i _ => ?_
  by_cases hp : i ≠ 4 ∧ cb face i ≠ cb face 4
  · simp [hp]
  · rw [if_neg hp]
    simp only [decide_eq_true_eq, if_neg hp]

theorem heuristicAllFaces_eq (cb : Cube) : heuristicAllFaces cb = mismatchCount cb / 12 := by
  unfold heuristicAllFaces
  rw [mismatchCount_eq_sum]
  simp only [foldl_mismatch_outer, Nat.zero_add]

set_option maxRecDepth 100000 in
theorem card_nonCentre : (Finset.univ.filter (fun p : Cell => p.2 ≠ 4)).card = 48 := by
  decide

theorem mismatchCount_le (cb : Cube) : mismatchCount cb ≤ 48 := by
  rw [← card_nonCentre]
  unfold mismatchCount
  apply Finset.card_le_card
  intro p hp
  simp only [Finset.mem_filter, Finset.mem_univ, true_and] at hp ⊢
  exact hp.1

theorem mismatchCount_eq_zero (cb : Cube) (hunif : ∀ s, uniformFace cb s) :
    mismatchCount cb = 0 := by
  unfold mismatchCount
  rw [Finset.card_eq_zero, Finset.filter_eq_empty_iff]
  rintro p _ ⟨_, hne⟩
  obtain ⟨k, hk⟩ := hunif p.1
  exact hne (by rw [hk, hk])

/-- C16 (diagnostic estimator): `heuristicAllFaces` is the number of non-centre stickers
that differ from the centre of their face, divided by 12; it is at most 4 and it is 0
when all six faces are uniform. -/
theorem C16_diagnostic_estimator (cb : Cube) :
    heuristicAllFaces cb = mismatchCount cb / 12 ∧ heuristicAllFaces cb ≤ 4 ∧
    ((∀ s, uniformFace cb s) → heuristicAllFaces cb = 0) := by
  have heq := heuristicAllFaces_eq cb
  have hle := mismatchCount_le cb
  refine ⟨heq, by omega, fun hunif => ?_⟩
  rw [heq, mismatchCount_eq_zero cb hunif]

set_option maxRecDepth 100000 in
/-- Witness of C16: the six faces of `solvedCube` are uniform. -/
theorem C16_diagnostic_estimator_witness :
    (∀ s, uniformFace solvedCube s) ∧ heuristicAllFaces solvedCube = 0 :=
  ⟨by decide, (C16_diagnostic_estimator solvedCube).2.2 (by decide)⟩

/-! ## Further claims on the selector -/

theorem tiedFrom_pairwise (state : AStarState) (b : Nat) (ms : List Move) (i : Nat) :
    (tiedFrom state b ms i).Pairwise (· < ·) := by
  induction ms generalizing i with
  | nil => exact List.Pairwise.nil
  | cons a ms ih =>
    simp only [tiedFrom]
    rw [List.pairwise_append]
    refine ⟨?_, ih (i + 1), ?_⟩
    · split_ifs
      · exact List.pairwise_singleton _ _
      · exact List.Pairwise.nil
    · intro x hx y hy
      have hy2 := (mem_tiedFrom state b ms (i + 1) y).1 hy
      split_ifs at hx
      · rw [List.mem_singleton] at hx
        omega
      · cases hx

theorem fScore_eq_minScore_iff (state : AStarState) (moves : List Move) (m : Move)
    (hm : m ∈ moves) :
    fScore state m = minScore state UINT64_MAX moves ↔
      ∀ m' ∈ moves, fScore state m ≤ fScore state m' := by
  constructor
  · intro heq m' hm'
    rw [heq]
    exact minScore_le_mem state UINT64_MAX moves m' hm'
  · intro hleast
    obtain ⟨m0, hm0, hmin⟩ :=
      minScore_attained_of_ne_nil state moves (List.ne_nil_of_mem hm)
    have h1 := hleast m0 hm0
    have h2 := minScore_le_mem state UINT64_MAX moves m hm
    omega

theorem mem_bestIndices_iff (state : AStarState) (moves : List Move) (i : Nat) :
    i ∈ (scoreAll state moves).bestIndices ↔
      ∃ m, moves[i]? = some m ∧ ∀ m' ∈ moves, fScore state m ≤ fScore state m' := by
  rw [(scoreAll_spec state moves).2.2, mem_tiedFrom]
  constructor
  · rintro ⟨_, m, hm, hmin⟩
    rw [Nat.sub_zero] at hm
    exact ⟨m, hm, (fScore_eq_minScore_iff state moves m (List.getElem?_mem hm)).1 hmin⟩
  · rintro ⟨m, hm, hleast⟩
    refine ⟨Nat.zero_le _, m, by rwa [Nat.sub_zero], ?_⟩
    exact (fScore_eq_minScore_iff state moves m (List.getElem?_mem hm)).2 hleast

theorem isMinimalIndex_iff (state : AStarState) (moves : List Move) (i : Nat) :
    isMinimalIndex state moves i = true ↔
      ∃ m, moves[i]? = some m ∧ ∀ m' ∈ moves, fScore state m ≤ fScore state m' := by
  unfold isMinimalIndex
  cases hget : moves[i]? with
  | none => simp
  | some m => simp

theorem bestIndices_eq_filter (state : AStarState) (moves : List Move) :
    (scoreAll state moves).bestIndices =
      (List.range moves.length).filter (isMinimalIndex state moves) := by
  have hsorted1 : ((scoreAll state moves).bestIndices).Sorted (· < ·) := by
    rw [(scoreAll_spec state moves).2.2]
    exact tiedFrom_pairwise state _ moves 0
  have hsorted2 : ((List.range moves.length).filter (isMinimalIndex state moves)).Sorted
      (· < ·) :=
    (List.pairwise_lt_range moves.length).filter _
  refine List.eq_of_perm_of_sorted ?_ hsorted1 hsorted2
  refine (List.perm_ext_iff_of_nodup hsorted1.nodup hsorted2.nodup).2 fun i => ?_
  rw [mem_bestIndices_iff, List.mem_filter, isMinimalIndex_iff, List.mem_range]
  constructor
  · rintro ⟨m, hm, hleast⟩
    exact ⟨(List.getElem?_eq_some.1 hm).1, m, hm, hleast⟩
  · rintro ⟨_, hex⟩
    exact hex

theorem AstarStep_of_index (state : AStarState) (moves : List Move) (draw i : Nat)
    (hi : (scoreAll state moves).bestIndices[draw]? = some i) :
    ∃ m, moves[i]? = some m ∧ (∀ m' ∈ moves, fScore state m ≤ fScore state m') ∧
      AstarStep state moves draw = some (committed state m) := by
  have hdraw : draw < (scoreAll state moves).bestIndices.length :=
    (List.getElem?_eq_some.1 hi).1
  obtain ⟨idx, m, hidx, hm, hmin, hstep⟩ := AstarStep_spec state moves draw hdraw
  rw [hi, Option.some.injEq] at hidx
  subst hidx
  exact ⟨m, hm, (fScore_eq_minScore_iff state moves m (List.getElem?_mem hm)).1 hmin, hstep⟩

/-- C14 (tie accumulation): when the scoring loop ends, `bestIndices` is the ascending
list, without repetition, of exactly the catalog indices whose score is least over the
catalog; every such index is committed for some draw, and every draw commits such an
index. -/
theorem C14_tie_accumulation (state : AStarState) (moves : List Move) :
    (scoreAll state moves).bestIndices =
      (List.range moves.length).filter (isMinimalIndex state moves) ∧
    (scoreAll state moves).bestIndices.Pairwise (· < ·) ∧
    (∀ i, i ∈ (scoreAll state moves).bestIndices ↔
      ∃ m, moves[i]? = some m ∧ ∀ m' ∈ moves, fScore state m ≤ fScore state m') ∧
    (∀ i m, moves[i]? = some m → (∀ m' ∈ moves, fScore state m ≤ fScore state m') →
      ∃ draw, (scoreAll state moves).bestIndices[draw]? = some i ∧
        AstarStep state moves draw = some (committed state m)) ∧
    (∀ draw i, (scoreAll state moves).bestIndices[draw]? = some i →
      ∃ m, moves[i]? = some m ∧ (∀ m' ∈ moves, fScore state m ≤ fScore state m') ∧
        AstarStep state moves draw = some (committed state m)) := by
  refine ⟨bestIndices_eq_filter state moves, ?_, mem_bestIndices_iff state moves, ?_,
    AstarStep_of_index state moves⟩
  · rw [(scoreAll_spec state moves).2.2]
    exact tiedFrom_pairwise state _ moves 0
  · intro i m hm hleast
    have hmem := (mem_bestIndices_iff state moves i).2 ⟨m, hm, hleast⟩
    obtain ⟨draw, hdraw, hget⟩ := List.getElem_of_mem hmem
    have hget2 : (scoreAll state moves).bestIndices[draw]? = some i := by
      rw [List.getElem?_eq_getElem hdraw, hget]
    obtain ⟨m2, hm2, _, hstep⟩ := AstarStep_of_index state moves draw i hget2
    rw [hm, Option.some.injEq] at hm2
    subst hm2
    exact ⟨draw, hget2, hstep⟩

set_option maxRecDepth 100000 in
/-- Witness of C14: on `sampleState` with the catalog `U, U', F2` the tied set is `[0, 1]`,
and draw 1 commits the catalog entry at index 1. -/
theorem C14_tie_accumulation_witness :
    (scoreAll sampleState shortCatalog).bestIndices = [0, 1] ∧
      (scoreAll sampleState shortCatalog).bestIndices[1]? = some 1 ∧
      ∃ m, shortCatalog[1]? = some m ∧
        (∀ m' ∈ shortCatalog, fScore sampleState m ≤ fScore sampleState m') ∧
        AstarStep sampleState shortCatalog 1 = some (committed sampleState m) :=
  ⟨by decide, by decide,
    (C14_tie_accumulation sampleState shortCatalog).2.2.2.2 1 1 (by decide)⟩

/-- C20 (empty catalog): with an empty catalog `AstarStep` leaves the stored cube, cost
and flag as they were and prints no move, whatever the draw. -/
theorem C20_empty_catalog (state : AStarState) (draw : Nat) :
    AstarStep state [] draw = some ⟨state, none⟩ := rfl

theorem bestIndices_singleton (state : AStarState) (m : Move) :
    (scoreAll state [m]).bestIndices = [0] := by
  rw [bestIndices_eq_filter]
  have hmin : isMinimalIndex state [m] 0 = true := by
    rw [isMinimalIndex_iff]
    exact ⟨m, rfl, fun m' hm' => by rw [List.mem_singleton.1 hm']⟩
  simp [List.range_succ, hmin]

/-- C13 (single-move catalog): with the catalog `[m]` the tied set is `[0]`, so the only
draw is 0, and `AstarStep` commits `m`: the stored cube is `applyMove m C` and the stored
cost is `g + moveCost m` modulo `2 ^ 64`. -/
theorem C13_single_move_catalog (state : AStarState) (m : Move) (draw : Nat)
    (hdraw : draw < (scoreAll state [m]).bestIndices.length) :
    (scoreAll state [m]).bestIndices = [0] ∧ draw = 0 ∧
    AstarStep state [m] draw = some (committed state m) ∧
    (committed state m).state.cube = applyMove m state.cube ∧
    (committed state m).state.player.cost = (state.player.cost + moveCost m) % 2 ^ 64 := by
  have hbest := bestIndices_singleton state m
  have hzero : draw = 0 := by
    rw [hbest] at hdraw
    simpa using hdraw
  subst hzero
  obtain ⟨m2, hm2, _, hstep⟩ := AstarStep_of_index state [m] 0 0 (by rw [hbest]; rfl)
  simp only [List.getElem?_cons_zero, Option.some.injEq] at hm2
  subst hm2
  exact ⟨hbest, rfl, hstep, rfl, rfl⟩

set_option maxRecDepth 100000 in
/-- Witness of C13: the catalog `[F]` on `sampleState`. -/
theorem C13_single_move_catalog_witness :
    0 < (scoreAll sampleState [.F]).bestIndices.length ∧
    ((scoreAll sampleState [.F]).bestIndices = [0] ∧ (0 : Nat) = 0 ∧
      AstarStep sampleState [.F] 0 = some (committed sampleState .F) ∧
      (committed sampleState .F).state.cube = applyMove .F sampleState.cube ∧
      (committed sampleState .F).state.player.cost =
        (sampleState.player.cost + moveCost .F) % 2 ^ 64) :=
  ⟨by decide, C13_single_move_catalog sampleState .F 0 (by decide)⟩

theorem moveCost_le_two (m : Move) : moveCost m ≤ 2 := by
  unfold moveCost
  split_ifs <;> omega

theorem fScore_exact (state : AStarState) (hsmall : state.player.cost ≤ 2 ^ 64 - 6)
    (m : Move) :
    fScore state m = state.player.cost + moveCost m + h (applyMove m state.cube) := by
  have hcost := moveCost_le_two m
  have hh := h_le_three (applyMove m state.cube)
  show ((state.player.cost + moveCost m) % 2 ^ 64 + h (applyMove m state.cube)) % 2 ^ 64 = _
  rw [Nat.mod_eq_of_lt (by omega), Nat.mod_eq_of_lt (by omega)]

theorem isMinimalIndex_cost_free (s1 s2 : AStarState) (moves : List Move)
    (hcube : s1.cube = s2.cube) (h1 : s1.player.cost ≤ 2 ^ 64 - 6)
    (h2 : s2.player.cost ≤ 2 ^ 64 - 6) (i : Nat) :
    isMinimalIndex s1 moves i = isMinimalIndex s2 moves i := by
  rw [Bool.eq_iff_iff, isMinimalIndex_iff, isMinimalIndex_iff]
  simp only [fScore_exact s1 h1, fScore_exact s2 h2, hcube]
  constructor
  · rintro ⟨m, hm, hleast⟩
    refine ⟨m, hm, fun m' hm' => ?_⟩
    have hle := hleast m' hm'
    omega
  · rintro ⟨m, hm, hleast⟩
    refine ⟨m, hm, fun m' hm' => ?_⟩
    have hle := hleast m' hm'
    omega

theorem bestIndices_cost_free (s1 s2 : AStarState) (moves : List Move)
    (hcube : s1.cube = s2.cube) (h1 : s1.player.cost ≤ 2 ^ 64 - 6)
    (h2 : s2.player.cost ≤ 2 ^ 64 - 6) :
    (scoreAll s1 moves).bestIndices = (scoreAll s2 moves).bestIndices := by
  have hsame : isMinimalIndex s1 moves = isMinimalIndex s2 moves :=
    funext fun i => isMinimalIndex_cost_free s1 s2 moves hcube h1 h2 i
  rw [bestIndices_eq_filter, bestIndices_eq_filter, hsame]

/-- C19 (the selection does not depend on the accumulated cost): two selector states
with the same cube and costs at most `2 ^ 64 - 6` build the same tied set, and for the
same draw they commit the same move and the same cube, the two new costs differing by
exactly the difference of the two old costs. -/
theorem C19_cost_independence (s1 s2 : AStarState) (moves : List Move)
    (hcube : s1.cube = s2.cube) (h1 : s1.player.cost ≤ 2 ^ 64 - 6)
    (h2 : s2.player.cost ≤ 2 ^ 64 - 6) :
    (scoreAll s1 moves).bestIndices = (scoreAll s2 moves).bestIndices ∧
    ∀ draw, draw < (scoreAll s1 moves).bestIndices.length →
      ∃ m, AstarStep s1 moves draw = some (committed s1 m) ∧
        AstarStep s2 moves draw = some (committed s2 m) ∧
        (committed s1 m).state.cube = (committed s2 m).state.cube ∧
        ((committed s1 m).state.player.cost : Int) - (committed s2 m).state.player.cost =
          (s1.player.cost : Int) - s2.player.cost := by
  have hsame := bestIndices_cost_free s1 s2 moves hcube h1 h2
  refine ⟨hsame, fun draw hdraw => ?_⟩
  have hget : (scoreAll s1 moves).bestIndices[draw]? =
      some ((scoreAll s1 moves).bestIndices[draw]) := List.getElem?_eq_getElem hdraw
  generalize (scoreAll s1 moves).bestIndices[draw] = idx at hget
  obtain ⟨m, hm, _, hstep1⟩ := AstarStep_of_index s1 moves draw idx hget
  obtain ⟨m2, hm2, _, hstep2⟩ := AstarStep_of_index s2 moves draw idx (hsame ▸ hget)
  rw [hm, Option.some.injEq] at hm2
  subst hm2
  refine ⟨m, hstep1, hstep2, ?_, ?_⟩
  · show applyMove m s1.cube = applyMove m s2.cube
    rw [hcube]
  · have hcost := moveCost_le_two m
    show (((s1.player.cost + moveCost m) % 2 ^ 64 : Nat) : Int) -
      ((s2.player.cost + moveCost m) % 2 ^ 64 : Nat) = _
    rw [Nat.mod_eq_of_lt (by omega), Nat.mod_eq_of_lt (by omega)]
    push_cast
    ring

set_option maxRecDepth 100000 in
/-- Witness of C19: `sampleState` (cost 0) and `laterState` (cost 7) with the catalog
`U, U', F2` and draw 0. -/
theorem C19_cost_independence_witness :
    sampleState.cube = laterState.cube ∧ sampleState.player.cost ≤ 2 ^ 64 - 6 ∧
    laterState.player.cost ≤ 2 ^ 64 - 6 ∧
    0 < (scoreAll sampleState shortCatalog).bestIndices.length ∧
    ∃ m, AstarStep sampleState shortCatalog 0 = some (committed sampleState m) ∧
      AstarStep laterState shortCatalog 0 = some (committed laterState m) ∧
      (committed sampleState m).state.cube = (committed laterState m).state.cube ∧
      ((committed sampleState m).state.player.cost : Int) -
          (committed laterState m).state.player.cost =
        (sampleState.player.cost : Int) - laterState.player.cost :=
  ⟨rfl, by decide, by decide, by decide,
    (C19_cost_independence sampleState laterState shortCatalog rfl (by decide) (by decide)).2 0
      (by decide)⟩

end RubikAStar
